import Mathlib

/-!
Verification of the OrderFlow service core against its specification.

Shallow embedding of the Go source:
* `internal/cache/cache.go`  — the bounded TTL cache (`Get`, `Set`, `LoadAll`,
  `evictOldest`); the Go map is modelled as an association list whose order is
  the insertion order (one admissible iteration order of a Go map).
* `internal/circuitbreaker/breaker.go` — the three-state circuit breaker.
* `internal/retry/retry.go` — the bounded exponential-backoff executor.
* `internal/validator/validator.go` — the order validator.
* `internal/http/api.go` — `handleGetOrder`.
* `cmd/service/message_handler.go` — the consumer message pipeline.
* ratelimit `TokenBucket` — the per-key token bucket.

Machine integers are modelled as `Int`/`Nat` (no overflow is reachable in the
claims), wall-clock instants as `Int` nanoseconds (cache, breaker, validator)
or `ℚ` (retry delays, token bucket, where the Go code computes in `float64`;
`ℚ` gives the exact arithmetic of those formulas).
-/

namespace OrderFlow

/-! ## Data model (`internal/model`, part_009) -/

structure Delivery where
  name : String
  phone : String
  zip : String
  city : String
  address : String
  region : String
  email : String
  deriving DecidableEq

structure Payment where
  transaction : String
  requestID : String
  currency : String
  provider : String
  amount : Int
  paymentDT : Int
  bank : String
  deliveryCost : Int
  goodsTotal : Int
  customFee : Int
  deriving DecidableEq

structure Item where
  chrtID : Int
  trackNumber : String
  price : Int
  rid : String
  name : String
  sale : Int
  size : String
  totalPrice : Int
  nmID : Int
  brand : String
  status : Int
  deriving DecidableEq

structure Order where
  orderUID : String
  trackNumber : String
  entry : String
  delivery : Delivery
  payment : Payment
  items : List Item
  locale : String
  internalSignature : String
  customerID : String
  deliveryService : String
  shardKey : String
  smID : Int
  dateCreated : Int
  oofShard : String
  deriving DecidableEq

/-! ## Order cache (`internal/cache/cache.go`)

Time is `Int` nanoseconds.  `cacheEntry` carries the order and the two
timestamps; the per-entry lock is a concurrency artefact with no sequential
content.  The Go `map[string]*cacheEntry` is an association list; insertion
replaces in place or appends, deletion filters, and iteration (only used by
`evictOldest`) walks the list front to back. -/

structure CacheEntry where
  order : Order
  createdAt : Int
  lastAccess : Int
  deriving DecidableEq

abbrev EntryList := List (String × CacheEntry)

/-- `m[k]` on the association-list model of the Go map. -/
def lookupKey (k : String) : EntryList → Option CacheEntry
  | [] => none
  | p :: ps => if p.1 = k then some p.2 else lookupKey k ps

/-- `m[k] = v` on the association-list model of the Go map. -/
def insertEntry (k : String) (v : CacheEntry) : EntryList → EntryList
  | [] => [(k, v)]
  | p :: ps => if p.1 = k then (k, v) :: ps else p :: insertEntry k v ps

/-- `delete(m, k)` on the association-list model of the Go map. -/
def eraseKey (k : String) (l : EntryList) : EntryList :=
  l.filter (fun p => p.1 ≠ k)

structure OrderCache where
  orders : EntryList
  maxSize : Nat
  ttl : Int
  hits : Int
  misses : Int
  evictions : Int
  expirations : Int
  deriving DecidableEq

/-- The loop body of `evictOldest`: keep the running best key and creation
time, replacing it only on a strictly earlier `createdAt` (Go:
`oldestKey == "" || createdAt.Before(oldestTime)`). -/
def oldestAux : Option (String × Int) → EntryList → Option (String × Int)
  | acc, [] => acc
  | none, (k, e) :: rest => oldestAux (some (k, e.createdAt)) rest
  | some (bk, bt), (k, e) :: rest =>
      if e.createdAt < bt then oldestAux (some (k, e.createdAt)) rest
      else oldestAux (some (bk, bt)) rest

def oldestKey (l : EntryList) : Option String :=
  (oldestAux none l).map Prod.fst

/-- `OrderCache.evictOldest` (cache.go:158-177). -/
def OrderCache.evictOldest (c : OrderCache) : OrderCache :=
  match oldestKey c.orders with
  | none => c
  | some k => { c with orders := eraseKey k c.orders, evictions := c.evictions + 1 }

/-- `OrderCache.Get` (cache.go:48-76).  Returns the Go pair
`(*model.Order, bool)` as an `Option Order` together with the new cache
state.  A hit refreshes `lastAccess`; an expired entry
(`time.Since(createdAt) > ttl`) is deleted and counted as one expiration and
one miss. -/
def OrderCache.get (c : OrderCache) (uid : String) (now : Int) :
    Option Order × OrderCache :=
  match lookupKey uid c.orders with
  | none => (none, { c with misses := c.misses + 1 })
  | some e =>
      if now - e.createdAt > c.ttl then
        (none, { c with orders := eraseKey uid c.orders,
                        expirations := c.expirations + 1,
                        misses := c.misses + 1 })
      else
        (some e.order,
         { c with orders := insertEntry uid ({ e with lastAccess := now }) c.orders,
                  hits := c.hits + 1 })

/-- `OrderCache.Set` (cache.go:78-99).  `order` is `*model.Order`, hence
`Option Order`; nil and empty-uid orders are ignored.  When the map already
holds `maxSize` or more entries the single oldest entry is evicted first. -/
def OrderCache.set (c : OrderCache) (o : Option Order) (now : Int) : OrderCache :=
  match o with
  | none => c
  | some order =>
      if order.orderUID = "" then c
      else
        let c' := if c.orders.length ≥ c.maxSize then c.evictOldest else c
        let e : CacheEntry := { order := order, createdAt := now, lastAccess := now }
        { c' with orders := insertEntry order.orderUID e c'.orders }

/-- One iteration of the `LoadAll` loop (cache.go:108-116): skip nil orders
and empty uids, otherwise store a fresh entry. -/
def loadStep (now : Int) (acc : EntryList) : Option Order → EntryList
  | some order =>
      if order.orderUID ≠ "" then
        insertEntry order.orderUID ⟨order, now, now⟩ acc
      else acc
  | none => acc

/-- `OrderCache.LoadAll` (cache.go:101-118): replace the whole map, keeping
only non-nil orders with a non-empty uid; counters untouched. -/
def OrderCache.loadAll (c : OrderCache) (orders : List (Option Order)) (now : Int) :
    OrderCache :=
  { c with orders := orders.foldl (loadStep now) [] }

/-- `OrderCache.Delete` (cache.go:120-124). -/
def OrderCache.deleteUID (c : OrderCache) (uid : String) : OrderCache :=
  { c with orders := eraseKey uid c.orders }

/-! ### Concrete fixtures used by counterexamples and witnesses -/

/-- An order whose only populated field is the uid (enough for the cache
claims; the cache never reads any other field). -/
def mkOrd (uid : String) : Order :=
  { orderUID := uid, trackNumber := "", entry := "",
    delivery := ⟨"", "", "", "", "", "", ""⟩,
    payment := ⟨"", "", "", "", 0, 0, "", 0, 0, 0⟩,
    items := [], locale := "", internalSignature := "", customerID := "",
    deliveryService := "", shardKey := "", smID := 0, dateCreated := 0,
    oofShard := "" }

def ordA : Order := mkOrd "a"
def ordB : Order := mkOrd "b"
def ordC : Order := mkOrd "c"
def entryA : CacheEntry := ⟨ordA, 0, 0⟩

/-- A cache holding one entry for uid `"a"` created at instant 0, `ttl = 5`. -/
def cacheW : OrderCache :=
  { orders := [("a", entryA)], maxSize := 10, ttl := 5,
    hits := 0, misses := 0, evictions := 0, expirations := 0 }

/-- An empty cache with `max_size = 1`. -/
def cacheEmpty1 : OrderCache :=
  { orders := [], maxSize := 1, ttl := 100,
    hits := 0, misses := 0, evictions := 0, expirations := 0 }

/-- A full cache (`max_size = 1`) holding uid `"a"`. -/
def cacheFull1 : OrderCache :=
  { orders := [("a", entryA)], maxSize := 1, ttl := 100,
    hits := 0, misses := 0, evictions := 0, expirations := 0 }

/-! ## Circuit breaker (`internal/circuitbreaker/breaker.go`)

Time is `Int` nanoseconds.  The Go `int` counters are `Int`.  One `Execute`
is one event: the admission check (`checkAndUpdateState`) and, when
admitted, the result recording (`recordResult`), both at the event's
instant. -/

inductive BState where
  | closed
  | opened
  | halfOpen
  deriving DecidableEq

structure CBConfig where
  failureThreshold : Int
  successThreshold : Int
  timeout : Int
  maxRequests : Int
  deriving DecidableEq

structure CircuitBreaker where
  config : CBConfig
  state : BState
  failureCount : Int
  successCount : Int
  requestCount : Int
  lastFailTime : Int
  nextAttempt : Int
  deriving DecidableEq

/-- `New` (breaker.go:68-86): non-positive configuration fields fall back to
the defaults. -/
def CircuitBreaker.make (cfg : CBConfig) : CircuitBreaker :=
  let cfg1 := if cfg.failureThreshold ≤ 0 then { cfg with failureThreshold := 5 } else cfg
  let cfg2 := if cfg1.successThreshold ≤ 0 then { cfg1 with successThreshold := 3 } else cfg1
  let cfg3 := if cfg2.timeout ≤ 0 then { cfg2 with timeout := 60000000000 } else cfg2
  let cfg4 := if cfg3.maxRequests ≤ 0 then { cfg3 with maxRequests := 3 } else cfg3
  { config := cfg4, state := .closed, failureCount := 0, successCount := 0,
    requestCount := 0, lastFailTime := 0, nextAttempt := 0 }

/-- `checkAndUpdateState` (breaker.go:178-209): returns whether the request
is admitted together with the updated breaker.  In `Open`, the transition to
`Half-Open` requires `now.After(nextAttempt)`, i.e. strictly
`now > nextAttempt`. -/
def CircuitBreaker.check (cb : CircuitBreaker) (now : Int) :
    Bool × CircuitBreaker :=
  match cb.state with
  | .closed => (true, cb)
  | .opened =>
      if now > cb.nextAttempt then
        (true, { cb with state := .halfOpen, requestCount := 0, successCount := 0 })
      else
        (false, cb)
  | .halfOpen => (decide (cb.requestCount < cb.config.maxRequests), cb)

/-- `recordResult` (breaker.go:218-272).  No case for `Open` in the Go
switch: recording in `Open` is a no-op. -/
def CircuitBreaker.record (cb : CircuitBreaker) (success : Bool) (now : Int) :
    CircuitBreaker :=
  match cb.state with
  | .closed =>
      if success then { cb with failureCount := 0 }
      else
        let cb1 := { cb with failureCount := cb.failureCount + 1, lastFailTime := now }
        if cb1.failureCount ≥ cb.config.failureThreshold then
          { cb1 with state := .opened, nextAttempt := now + cb.config.timeout }
        else cb1
  | .halfOpen =>
      let cb1 := { cb with requestCount := cb.requestCount + 1 }
      if success then
        let cb2 := { cb1 with successCount := cb1.successCount + 1 }
        if cb2.successCount ≥ cb.config.successThreshold then
          { cb2 with state := .closed, failureCount := 0, successCount := 0,
                     requestCount := 0 }
        else cb2
      else
        { cb1 with state := .opened, nextAttempt := now + cb.config.timeout,
                   failureCount := cb1.failureCount + 1, lastFailTime := now }
  | .opened => cb

/-- One `Execute` (breaker.go:94-112): on rejection the typed
`CircuitBreakerError` carries the state read after the admission check. -/
inductive ExecOutcome where
  | rejected (errState : BState)
  | completed (opSuccess : Bool)
  deriving DecidableEq

def CircuitBreaker.execute (cb : CircuitBreaker) (now : Int) (opSuccess : Bool) :
    ExecOutcome × CircuitBreaker :=
  let r := cb.check now
  if r.1 then (.completed opSuccess, r.2.record opSuccess now)
  else (.rejected r.2.state, r.2)

/-- A breaker one failure away from opening, `timeout = 10`. -/
def cbClosedW : CircuitBreaker :=
  { config := { failureThreshold := 1, successThreshold := 1, timeout := 10,
                maxRequests := 1 },
    state := .closed, failureCount := 0, successCount := 0, requestCount := 0,
    lastFailTime := 0, nextAttempt := 0 }

/-- A Half-Open breaker one success away from closing. -/
def cbHalfW : CircuitBreaker :=
  { config := { failureThreshold := 1, successThreshold := 1, timeout := 10,
                maxRequests := 3 },
    state := .halfOpen, failureCount := 1, successCount := 0, requestCount := 0,
    lastFailTime := 0, nextAttempt := 10 }

/-! ## Retry executor (`internal/retry/retry.go`)

Delays are `ℚ` nanoseconds (the Go code computes them in `float64`; `ℚ`
gives the formula's exact value).  The operation is a function from the
attempt number (1-based) to `none` (success) or `some e` (the error of that
invocation). -/

structure RetryConfig where
  maxAttempts : Nat
  initialDelay : ℚ
  maxDelay : ℚ
  multiplier : ℚ
  deriving DecidableEq

/-- `calculateDelay` (retry.go:50-60):
`initialDelay · multiplier^(attempt-1)` capped at `maxDelay`. -/
def calculateDelay (cfg : RetryConfig) (attempt : Nat) : ℚ :=
  let d := cfg.initialDelay * cfg.multiplier ^ (attempt - 1)
  if d > cfg.maxDelay then cfg.maxDelay else d

inductive RetryOutcome (E : Type) where
  | success : RetryOutcome E
  | exhausted (attempts : Nat) (lastErr : E) : RetryOutcome E
  deriving DecidableEq

/-- The loop of `ExecuteWithRetry` (retry.go:23-48).  `attempt` is the Go
loop counter, `remaining = maxAttempts + 1 - attempt` the number of loop
iterations still permitted by `attempt ≤ maxAttempts` (the structural
counter of the for loop).  Result: outcome, the list of delays slept, and
the number of invocations of the operation.  `remaining = 0` is the loop
falling through, where Go returns the nil `lastErr` (observably a
success); `remaining = 1` is `attempt == maxAttempts`, where the error is
wrapped with the attempt count. -/
def retryGo {E : Type} (cfg : RetryConfig) (op : Nat → Option E) :
    Nat → Nat → RetryOutcome E × List ℚ × Nat
  | _, 0 => (.success, [], 0)
  | attempt, r + 1 =>
      match op attempt with
      | none => (.success, [], 1)
      | some e =>
          if r = 0 then (.exhausted cfg.maxAttempts e, [], 1)
          else
            let rest := retryGo cfg op (attempt + 1) r
            (rest.1, calculateDelay cfg attempt :: rest.2.1, rest.2.2 + 1)

/-- `ExecuteWithRetry` (retry.go:23-48). -/
def executeWithRetry {E : Type} (cfg : RetryConfig) (op : Nat → Option E) :
    RetryOutcome E × List ℚ × Nat :=
  retryGo cfg op 1 cfg.maxAttempts

/-- A retry configuration with two attempts, delays 100·2^(k−1) capped at
1000000. -/
def retryCfgW : RetryConfig :=
  { maxAttempts := 2, initialDelay := 100, maxDelay := 1000000, multiplier := 2 }

/-! ## Consumer message pipeline (`cmd/service/message_handler.go`) -/

inductive ProcErr where
  | parse
  | validation (msg : String)
  | save (msg : String)
  deriving DecidableEq

/-- The environment of one message: the (deterministic) decode result of
the message bytes, the validator's verdict on the decoded order, and the
store's per-invocation outcome (the store may differ between attempts). -/
structure PipelineEnv where
  decodeRes : Option Order
  validateRes : Order → Option String
  saveRes : Nat → Option String

/-- The `processMessage` closure (message_handler.go:27-49) at its
`attempt`-th invocation: decode, validate, persist (the subsequent
cache-set cannot fail). -/
def processMessage (env : PipelineEnv) (attempt : Nat) : Option ProcErr :=
  match env.decodeRes with
  | none => some .parse
  | some order =>
      match env.validateRes order with
      | some m => some (.validation m)
      | none =>
          match env.saveRes attempt with
          | some m => some (.save m)
          | none => none

/-- `HandleMessage` (message_handler.go:23-63): run `processMessage` under
the retry executor; on a non-nil final error send the message to the DLQ.
Returns (outcome, number of operation invocations, sent-to-DLQ?). -/
def handleMessage (cfg : RetryConfig) (env : PipelineEnv) :
    RetryOutcome ProcErr × Nat × Bool :=
  let r := executeWithRetry cfg (processMessage env)
  (r.1, r.2.2,
   match r.1 with
   | .success => false
   | .exhausted _ _ => true)

/-- A message whose decoded order always fails validation. -/
def envValFail : PipelineEnv :=
  { decodeRes := some ordA, validateRes := fun _ => some "validation failed",
    saveRes := fun _ => none }

def retryCfg3 : RetryConfig :=
  { maxAttempts := 3, initialDelay := 100, maxDelay := 1000000, multiplier := 2 }

/-! ## HTTP read path (`internal/http/api.go`) -/

inductive HttpResp where
  | okJson (o : Order)
  | badRequest
  | notFound
  deriving DecidableEq

/-- `handleGetOrder` (api.go:155-192).  `db` is the server's `DB` field
(`nil` allowed); a store lookup returns `(order, err)`, modelled as
`Except String (Option Order)` with `.ok (some o)` for
`err == nil && dbOrder != nil`. -/
def handleGetOrder (cache : OrderCache)
    (db : Option (String → Except String (Option Order)))
    (uid : String) (now : Int) : HttpResp × OrderCache :=
  if uid = "" then (.badRequest, cache)
  else
    let r := cache.get uid now
    match r.1 with
    | some o => (.okJson o, r.2)
    | none =>
        match db with
        | some store =>
            match store uid with
            | .ok (some dbOrder) => (.okJson dbOrder, r.2.set (some dbOrder) now)
            | _ => (.notFound, r.2)
        | none => (.notFound, r.2)

/-! ## Validator (`internal/validator/validator.go`)

`now` and `oneYearAgo` are the two wall-clock values the Go validator reads
(`time.Now()` and `time.Now().AddDate(-1, 0, 0)`); `date_created` is `Int`
nanoseconds (`0` is the zero time), `payment_dt` unix seconds.  The regular
expressions are transcribed to character-class matchers (a match is a
decomposition into the regex's groups). -/

structure ValidationConfig where
  orderUIDMinLength : Int
  orderUIDMaxLength : Int
  trackNumberMinLength : Int
  trackNumberMaxLength : Int
  maxPaymentAmount : Int
  maxItemsPerOrder : Int
  maxItemPrice : Int
  deriving DecidableEq

/-- The defaults of `config.Load` (config.go:158-164). -/
def defaultValidationConfig : ValidationConfig :=
  ⟨10, 50, 5, 20, 1000000, 100, 100000⟩

/-- `^[a-zA-Z0-9\-_]+$` -/
def uidPattern (s : String) : Bool :=
  decide (1 ≤ s.length) && s.toList.all (fun c => c.isAlphanum || c = '-' || c = '_')

/-- `^[A-Z0-9]+$` -/
def trackPattern (s : String) : Bool :=
  decide (1 ≤ s.length) && s.toList.all (fun c => c.isUpper || c.isDigit)

/-- `^\+?[1-9]\d{1,14}$` -/
def phonePattern (s : String) : Bool :=
  let t := match s.toList with
           | '+' :: rest => rest
           | l => l
  match t with
  | [] => false
  | c :: rest =>
      decide ('1' ≤ c) && decide (c ≤ '9') &&
      decide (1 ≤ rest.length) && decide (rest.length ≤ 14) &&
      rest.all Char.isDigit

/-- `^\d{5,10}$` -/
def zipPattern (s : String) : Bool :=
  decide (5 ≤ s.length) && decide (s.length ≤ 10) && s.toList.all Char.isDigit

def emailLocalChar (c : Char) : Bool :=
  c.isAlphanum || c = '.' || c = '_' || c = '%' || c = '+' || c = '-'

def emailDomChar (c : Char) : Bool :=
  c.isAlphanum || c = '.' || c = '-'

/-- `[a-zA-Z0-9.-]+\.[a-zA-Z]{2,}$` — some split at a dot. -/
def emailTail (cs : List Char) : Bool :=
  (List.range cs.length).any fun i =>
    decide (1 ≤ i) && (cs.take i).all emailDomChar && (cs.get? i == some '.') &&
    decide (2 ≤ (cs.drop (i + 1)).length) && (cs.drop (i + 1)).all Char.isAlpha

/-- `^[a-zA-Z0-9._%+-]+@[a-zA-Z0-9.-]+\.[a-zA-Z]{2,}$` -/
def emailPattern (s : String) : Bool :=
  let cs := s.toList
  (List.range cs.length).any fun i =>
    decide (1 ≤ i) && (cs.take i).all emailLocalChar && (cs.get? i == some '@') &&
    emailTail (cs.drop (i + 1))

/-- `^[a-zA-Z0-9_-]+$` -/
def customerPattern (s : String) : Bool :=
  decide (1 ≤ s.length) && s.toList.all (fun c => c.isAlphanum || c = '_' || c = '-')

def validateOrderUID (cfg : ValidationConfig) (orderUID : String) : Option String :=
  if orderUID = "" then some "order_uid is required"
  else if (orderUID.length : Int) < cfg.orderUIDMinLength ∨
      (orderUID.length : Int) > cfg.orderUIDMaxLength then
    some ("order_uid length must be between " ++ toString cfg.orderUIDMinLength ++
      " and " ++ toString cfg.orderUIDMaxLength ++ " characters")
  else if ¬ uidPattern orderUID then some "order_uid contains invalid characters"
  else none

def validateTrackNumber (cfg : ValidationConfig) (trackNumber : String) :
    Option String :=
  if trackNumber = "" then some "track_number is required"
  else if (trackNumber.length : Int) < cfg.trackNumberMinLength ∨
      (trackNumber.length : Int) > cfg.trackNumberMaxLength then
    some ("track_number length must be between " ++
      toString cfg.trackNumberMinLength ++ " and " ++
      toString cfg.trackNumberMaxLength ++ " characters")
  else if ¬ trackPattern trackNumber then
    some "track_number must contain only uppercase letters and numbers"
  else none

def validEntries : List String := ["WBIL", "WBILMT", "WBILM", "WBILT"]

def validateEntry (entry : String) : Option String :=
  if entry = "" then some "entry is required"
  else if entry.length < 2 ∨ entry.length > 10 then
    some "entry length must be between 2 and 10 characters"
  else if ¬ (entry ∈ validEntries) then
    some "entry must be one of: WBIL, WBILMT, WBILM, WBILT"
  else none

def validateDelivery (d : Delivery) : Option String :=
  if d.name = "" then some "delivery name is required"
  else if d.name.length < 2 ∨ d.name.length > 100 then
    some "delivery name length must be between 2 and 100 characters"
  else if d.phone = "" then some "delivery phone is required"
  else if ¬ phonePattern d.phone then
    some "delivery phone format is invalid (must be international format)"
  else if d.email = "" then some "delivery email is required"
  else if ¬ emailPattern d.email then some "delivery email format is invalid"
  else if d.address = "" then some "delivery address is required"
  else if d.address.length < 5 ∨ d.address.length > 200 then
    some "delivery address length must be between 5 and 200 characters"
  else if d.city = "" then some "delivery city is required"
  else if d.city.length < 2 ∨ d.city.length > 50 then
    some "delivery city length must be between 2 and 50 characters"
  else if d.zip ≠ "" ∧ ¬ zipPattern d.zip then
    some "delivery zip code format is invalid"
  else if d.region ≠ "" ∧ (d.region.length < 2 ∨ d.region.length > 10) then
    some "delivery region length must be between 2 and 10 characters"
  else none

def validCurrencies : List String := ["USD", "EUR", "RUB", "GBP", "CNY", "JPY"]

def validProviders : List String := ["wbpay", "stripe", "paypal", "square", "adyen"]

def validatePayment (cfg : ValidationConfig) (p : Payment) (now : Int) :
    Option String :=
  if p.transaction = "" then some "payment transaction is required"
  else if p.transaction.length < 10 ∨ p.transaction.length > 50 then
    some "payment transaction length must be between 10 and 50 characters"
  else if p.currency = "" then some "payment currency is required"
  else if ¬ (p.currency ∈ validCurrencies) then
    some "payment currency must be one of: USD, EUR, RUB, GBP, CNY, JPY"
  else if p.provider = "" then some "payment provider is required"
  else if ¬ (p.provider ∈ validProviders) then
    some "payment provider must be one of: wbpay, stripe, paypal, square, adyen"
  else if p.amount ≤ 0 then some "payment amount must be positive"
  else if p.amount > cfg.maxPaymentAmount then
    some ("payment amount cannot exceed " ++ toString cfg.maxPaymentAmount)
  else if p.paymentDT ≤ 0 then some "payment_dt must be positive"
  else if p.paymentDT * 1000000000 > now then
    some "payment_dt cannot be in the future"
  else if p.bank = "" then some "payment bank is required"
  else if p.bank.length < 2 ∨ p.bank.length > 20 then
    some "payment bank length must be between 2 and 20 characters"
  else if p.deliveryCost < 0 then some "delivery_cost cannot be negative"
  else if p.deliveryCost > p.amount then
    some "delivery_cost cannot exceed total amount"
  else if p.goodsTotal < 0 then some "goods_total cannot be negative"
  else if p.goodsTotal + p.deliveryCost ≠ p.amount then
    some "goods_total + delivery_cost must equal total amount"
  else none

def validateItem (cfg : ValidationConfig) (item : Item) (index : Nat) :
    Option String :=
  let pre := "item[" ++ toString index ++ "] "
  if item.chrtID ≤ 0 then some (pre ++ "chrt_id must be positive")
  else if item.chrtID > 999999999 then some (pre ++ "chrt_id is too large")
  else if item.name = "" then some (pre ++ "name is required")
  else if item.name.length < 1 ∨ item.name.length > 200 then
    some (pre ++ "name length must be between 1 and 200 characters")
  else if item.price < 0 then some (pre ++ "price cannot be negative")
  else if item.price > cfg.maxItemPrice then
    some (pre ++ "price cannot exceed " ++ toString cfg.maxItemPrice)
  else if item.totalPrice < 0 then some (pre ++ "total_price cannot be negative")
  else if item.totalPrice > item.price then
    some (pre ++ "total_price cannot exceed price")
  else if item.nmID ≤ 0 then some (pre ++ "nm_id must be positive")
  else if item.nmID > 999999999 then some (pre ++ "nm_id is too large")
  else if item.brand = "" then some (pre ++ "brand is required")
  else if item.brand.length < 1 ∨ item.brand.length > 50 then
    some (pre ++ "brand length must be between 1 and 50 characters")
  else if item.sale < 0 ∨ item.sale > 100 then
    some (pre ++ "sale must be between 0 and 100")
  else if item.status < 0 ∨ item.status > 999 then
    some (pre ++ "status must be between 0 and 999")
  else none

/-- The `for i, item := range items` loop: first failing item wins. -/
def validateItemsFrom (cfg : ValidationConfig) : Nat → List Item → Option String
  | _, [] => none
  | i, item :: rest =>
      match validateItem cfg item i with
      | some m => some m
      | none => validateItemsFrom cfg (i + 1) rest

def validateItems (cfg : ValidationConfig) (items : List Item) : Option String :=
  if items.length = 0 then some "at least one item is required"
  else if (items.length : Int) > cfg.maxItemsPerOrder then
    some ("cannot have more than " ++ toString cfg.maxItemsPerOrder ++
      " items in order")
  else validateItemsFrom cfg 0 items

def validLocales : List String :=
  ["en", "ru", "es", "fr", "de", "it", "pt", "ja", "ko", "zh"]

def validateLocale (locale : String) : Option String :=
  if locale = "" then some "locale is required"
  else if locale.length ≠ 2 then some "locale must be 2 characters"
  else if ¬ (locale ∈ validLocales) then
    some "locale must be one of: en, ru, es, fr, de, it, pt, ja, ko, zh"
  else none

def validateCustomerID (customerID : String) : Option String :=
  if customerID = "" then some "customer_id is required"
  else if customerID.length < 3 ∨ customerID.length > 20 then
    some "customer_id length must be between 3 and 20 characters"
  else if ¬ customerPattern customerID then
    some "customer_id contains invalid characters"
  else none

def validServices : List String :=
  ["meest", "cdek", "dhl", "fedex", "ups", "usps", "ems"]

def validateDeliveryService (ds : String) : Option String :=
  if ds = "" then some "delivery_service is required"
  else if ds.length < 2 ∨ ds.length > 20 then
    some "delivery_service length must be between 2 and 20 characters"
  else if ¬ (ds ∈ validServices) then
    some "delivery_service must be one of: meest, cdek, dhl, fedex, ups, usps, ems"
  else none

def validateDateCreated (dateCreated now oneYearAgo : Int) : Option String :=
  if dateCreated = 0 then some "date_created is required"
  else if dateCreated > now then some "date_created cannot be in the future"
  else if dateCreated < oneYearAgo then
    some "date_created cannot be older than 1 year"
  else none

def itemsTotal (items : List Item) : Int := (items.map Item.totalPrice).sum

def validateBusinessLogic (o : Order) : Option String :=
  if itemsTotal o.items ≠ o.payment.goodsTotal then
    some ("sum of items total_price (" ++ toString (itemsTotal o.items) ++
      ") does not match payment goods_total (" ++
      toString o.payment.goodsTotal ++ ")")
  else if o.payment.transaction ≠ o.orderUID then
    some "payment transaction must match order_uid"
  else none

def collectErrors (l : List (Option String)) : List String := l.filterMap id

/-- `OrderValidator.Validate` (validator.go:24-88): gather every
sub-validator's error; the order is accepted iff the list is empty. -/
def Validate (cfg : ValidationConfig) (now oneYearAgo : Int) :
    Option Order → List String
  | none => ["order is nil"]
  | some o =>
      collectErrors
        [validateOrderUID cfg o.orderUID,
         validateTrackNumber cfg o.trackNumber,
         validateEntry o.entry,
         (validateDelivery o.delivery).map (fun e => "delivery: " ++ e),
         (validatePayment cfg o.payment now).map (fun e => "payment: " ++ e),
         (validateItems cfg o.items).map (fun e => "items: " ++ e),
         validateLocale o.locale,
         validateCustomerID o.customerID,
         validateDeliveryService o.deliveryService,
         validateDateCreated o.dateCreated now oneYearAgo,
         (validateBusinessLogic o).map (fun e => "business logic: " ++ e)]

/-- A fully valid order (scenario values of §8, completed to pass every
field check). -/
def wOrder : Order :=
  { orderUID := "b563feb7b2b84b6test",
    trackNumber := "WBILMTESTTRACK",
    entry := "WBIL",
    delivery :=
      { name := "Test Testov", phone := "+9720000000", zip := "2639809",
        city := "Kiryat Mozkin", address := "Ploshad Mira 15",
        region := "Kraiot", email := "test@gmail.com" },
    payment :=
      { transaction := "b563feb7b2b84b6test", requestID := "",
        currency := "USD", provider := "wbpay", amount := 1817,
        paymentDT := 1637907727, bank := "alpha", deliveryCost := 1500,
        goodsTotal := 317, customFee := 0 },
    items :=
      [{ chrtID := 9934930, trackNumber := "WBILMTESTTRACK", price := 453,
         rid := "ab4219087a764ae0btest", name := "Mascaras", sale := 30,
         size := "0", totalPrice := 317, nmID := 2389212,
         brand := "Vivienne Sabo", status := 202 }],
    locale := "en", internalSignature := "", customerID := "test",
    deliveryService := "meest", shardKey := "9", smID := 99,
    dateCreated := 1637907727000000000, oofShard := "1" }

/-- `wOrder` with the payment equation broken. -/
def wOrderBad : Order :=
  { wOrder with payment := { wOrder.payment with goodsTotal := 999 } }

def wNow : Int := 1700000000000000000

/-! ## Token-bucket rate limiter (ratelimit, part_008)

Times and token balances are `ℚ` (the Go code holds `tokens` in `float64`
and divides durations; `ℚ` is the exact arithmetic of the same formulas).
One key's bucket is modelled; buckets of distinct keys are independent in
the Go map. -/

structure RLConfig where
  requests : Int
  window : ℚ
  burst : Int
  deriving DecidableEq

/-- `NewTokenBucket` (part_008:317-327): a non-positive `burst` defaults to
`requests`. -/
def RLConfig.effective (c : RLConfig) : RLConfig :=
  if c.burst ≤ 0 then { c with burst := c.requests } else c

structure Bucket where
  tokens : ℚ
  lastRefill : ℚ
  allowed : Int
  denied : Int
  burst : ℚ
  deriving DecidableEq

def reqQ (cfg : RLConfig) : ℚ := (cfg.requests : ℚ)

def burstQ (cfg : RLConfig) : ℚ := (cfg.burst : ℚ)

/-- `getOrCreateBucket` (part_008:403-415): a fresh bucket holds
`requests` tokens (not `burst`), capacity `burst`. -/
def mkBucket (cfg : RLConfig) (now : ℚ) : Bucket :=
  { tokens := reqQ cfg, lastRefill := now, allowed := 0, denied := 0,
    burst := burstQ cfg }

/-- `refill` (part_008:418-435): add `elapsed/window · requests` tokens,
capped at the bucket's `burst`. -/
def refill (cfg : RLConfig) (b : Bucket) (now : ℚ) : Bucket :=
  let elapsed := now - b.lastRefill
  if elapsed ≤ 0 then b
  else
    let tokensToAdd := elapsed / cfg.window * reqQ cfg
    let t := b.tokens + tokensToAdd
    { b with tokens := if t > b.burst then b.burst else t, lastRefill := now }

/-- `Allow` (part_008:330-348) on one key's bucket: refill, then consume
one token if at least one is available. -/
def allowStep (cfg : RLConfig) (b : Bucket) (now : ℚ) : Bool × Bucket :=
  let b1 := refill cfg b now
  if b1.tokens ≥ 1 then
    (true, { b1 with tokens := b1.tokens - 1, allowed := b1.allowed + 1 })
  else
    (false, { b1 with denied := b1.denied + 1 })

/-- One `Allow` call on a key, creating the bucket on first use. -/
def runAllow (cfg : RLConfig) (s : Option Bucket) (now : ℚ) : Bool × Bucket :=
  let b := match s with
           | none => mkBucket cfg now
           | some b => b
  allowStep cfg b now

/-- Run the `Allow` calls at the given instants, counting the admissions
whose instant lies in `[lo, hi]`. -/
def runCount (cfg : RLConfig) (lo hi : ℚ) : Option Bucket → List ℚ → Nat
  | _, [] => 0
  | s, t :: ts =>
      let r := runAllow cfg s t
      (if r.1 ∧ lo ≤ t ∧ t ≤ hi then 1 else 0) + runCount cfg lo hi (some r.2) ts

/-- The largest token balance a bucket can ever hold: it is created with
`requests` tokens and every genuine refill caps it at `burst`. -/
def tokenCap (cfg : RLConfig) : ℚ := max (burstQ cfg) (reqQ cfg)

/-- Potential of a bucket state w.r.t. the window `[a, a + window]`:
tokens in hand plus everything the refill rate can still add before the
window closes. -/
def phi (cfg : RLConfig) (a : ℚ) : Option Bucket → ℚ
  | none => tokenCap cfg + reqQ cfg
  | some b =>
      if b.lastRefill < a then tokenCap cfg + reqQ cfg
      else b.tokens + (a + cfg.window - b.lastRefill) / cfg.window * reqQ cfg

/-- State invariant maintained by every `Allow`. -/
def BucketInv (cfg : RLConfig) (a : ℚ) : Option Bucket → Prop
  | none => True
  | some b => 0 ≤ b.tokens ∧ b.tokens ≤ tokenCap cfg ∧ b.burst = burstQ cfg ∧
      0 ≤ phi cfg a (some b)

/-- The counterexample configuration: `burst < requests`. -/
def rlCfgCE : RLConfig := { requests := 2, window := 4, burst := 1 }

/-- A token-bucket configuration with `burst = requests = 2`. -/
def rlCfgW : RLConfig := { requests := 2, window := 4, burst := 2 }

/-! ### Association-list lemmas -/

theorem lookupKey_insert_self (k : String) (v : CacheEntry) :
    ∀ l : EntryList, lookupKey k (insertEntry k v l) = some v := by
  intro l
  induction l with
  | nil => simp [insertEntry, lookupKey]
  | cons p ps ih =>
      by_cases h : p.1 = k
      · simp [insertEntry, h, lookupKey]
      · simp [insertEntry, h, lookupKey, ih]

theorem lookupKey_insert_ne (k k' : String) (v : CacheEntry) (hne : k' ≠ k) :
    ∀ l : EntryList, lookupKey k' (insertEntry k v l) = lookupKey k' l := by
  intro l
  induction l with
  | nil => simp [insertEntry, lookupKey, hne.symm]
  | cons p ps ih =>
      by_cases h : p.1 = k
      · subst h
        simp [insertEntry, lookupKey, hne.symm]
      · simp [insertEntry, h, lookupKey, ih]

theorem insertEntry_length (k : String) (v : CacheEntry) :
    ∀ l : EntryList, (insertEntry k v l).length =
      if (lookupKey k l).isSome then l.length else l.length + 1 := by
  intro l
  induction l with
  | nil => simp [insertEntry, lookupKey]
  | cons p ps ih =>
      by_cases h : p.1 = k
      · simp [insertEntry, h, lookupKey]
      · simp only [insertEntry, if_neg h, lookupKey, List.length_cons, ih]
        by_cases hs : (lookupKey k ps).isSome <;> simp [hs]

theorem lookupKey_eraseKey_self (k : String) (l : EntryList) :
    lookupKey k (eraseKey k l) = none := by
  induction l with
  | nil => simp [eraseKey, lookupKey]
  | cons p ps ih =>
      by_cases h : p.1 = k
      · simpa [eraseKey, h] using ih
      · simpa [eraseKey, lookupKey, h] using ih

theorem eraseKey_cons (k : String) (p : String × CacheEntry) (ps : EntryList) :
    eraseKey k (p :: ps) = if p.1 = k then eraseKey k ps else p :: eraseKey k ps := by
  by_cases h : p.1 = k <;> simp [eraseKey, List.filter_cons, h]

theorem lookupKey_eraseKey_ne (k k' : String) (l : EntryList) (hne : k' ≠ k) :
    lookupKey k' (eraseKey k l) = lookupKey k' l := by
  induction l with
  | nil => simp [eraseKey, lookupKey]
  | cons p ps ih =>
      rw [eraseKey_cons]
      by_cases h : p.1 = k
      · have h' : ¬ p.1 = k' := by rw [h]; exact fun hk => hne hk.symm
        rw [if_pos h, ih]
        simp [lookupKey, h']
      · rw [if_neg h]
        by_cases h' : p.1 = k'
        · simp [lookupKey, h']
        · simp [lookupKey, h', ih]

theorem eraseKey_length_le (k : String) (l : EntryList) :
    (eraseKey k l).length ≤ l.length :=
  List.length_filter_le _ l

theorem eraseKey_length_lt (k : String) (l : EntryList)
    (h : (lookupKey k l).isSome) : (eraseKey k l).length < l.length := by
  induction l with
  | nil => simp [lookupKey] at h
  | cons p ps ih =>
      rw [eraseKey_cons]
      by_cases hp : p.1 = k
      · rw [if_pos hp]
        have := eraseKey_length_le k ps
        simp only [List.length_cons]
        omega
      · rw [if_neg hp]
        simp only [lookupKey, if_neg hp] at h
        have := ih h
        simp only [List.length_cons]
        omega

/-! ### `evictOldest` characterisation: the survivor of the Go loop is the
first entry (in iteration order) whose `createdAt` is minimal. -/

theorem oldestAux_min : ∀ (l : EntryList) (bk : String) (bt : Int),
    ∀ k t, oldestAux (some (bk, bt)) l = some (k, t) →
      t ≤ bt ∧ ∀ p ∈ l, t ≤ p.2.createdAt := by
  intro l
  induction l with
  | nil =>
      intro bk bt k t h
      simp only [oldestAux, Option.some.injEq, Prod.mk.injEq] at h
      obtain ⟨rfl, rfl⟩ := h
      exact ⟨le_refl _, by simp⟩
  | cons p ps ih =>
      intro bk bt k t h
      by_cases hc : p.2.createdAt < bt
      · simp only [oldestAux, if_pos hc] at h
        obtain ⟨h1, h2⟩ := ih p.1 p.2.createdAt k t h
        refine ⟨le_of_lt (lt_of_le_of_lt h1 hc), ?_⟩
        intro q hq
        rcases List.mem_cons.mp hq with rfl | hq
        · exact h1
        · exact h2 q hq
      · simp only [oldestAux, if_neg hc] at h
        obtain ⟨h1, h2⟩ := ih bk bt k t h
        refine ⟨h1, ?_⟩
        intro q hq
        rcases List.mem_cons.mp hq with rfl | hq
        · exact le_trans h1 (le_of_not_lt hc)
        · exact h2 q hq

theorem oldestAux_split : ∀ (l : EntryList) (bk : String) (bt : Int),
    ∀ k t, oldestAux (some (bk, bt)) l = some (k, t) →
      (k = bk ∧ t = bt) ∨
      ∃ l1 e l2, l = l1 ++ (k, e) :: l2 ∧ t = e.createdAt ∧ t < bt ∧
        ∀ p ∈ l1, t < p.2.createdAt := by
  intro l
  induction l with
  | nil =>
      intro bk bt k t h
      simp only [oldestAux, Option.some.injEq, Prod.mk.injEq] at h
      obtain ⟨rfl, rfl⟩ := h
      exact Or.inl ⟨rfl, rfl⟩
  | cons p ps ih =>
      intro bk bt k t h
      by_cases hc : p.2.createdAt < bt
      · simp only [oldestAux, if_pos hc] at h
        rcases ih p.1 p.2.createdAt k t h with ⟨rfl, rfl⟩ | ⟨l1, e, l2, rfl, ht, hlt, hmin⟩
        · exact Or.inr ⟨[], p.2, ps, by simp, rfl, hc, by simp⟩
        · refine Or.inr ⟨p :: l1, e, l2, by simp, ht, lt_trans hlt hc, ?_⟩
          intro q hq
          rcases List.mem_cons.mp hq with rfl | hq
          · exact hlt
          · exact hmin q hq
      · simp only [oldestAux, if_neg hc] at h
        rcases ih bk bt k t h with ⟨rfl, rfl⟩ | ⟨l1, e, l2, rfl, ht, hlt, hmin⟩
        · exact Or.inl ⟨rfl, rfl⟩
        · refine Or.inr ⟨p :: l1, e, l2, by simp, ht, hlt, ?_⟩
          intro q hq
          rcases List.mem_cons.mp hq with rfl | hq
          · exact lt_of_lt_of_le hlt (le_of_not_lt hc)
          · exact hmin q hq

theorem oldestKey_spec (l : EntryList) (k : String) (h : oldestKey l = some k) :
    ∃ l1 e l2, l = l1 ++ (k, e) :: l2 ∧
      (∀ p ∈ l1, e.createdAt < p.2.createdAt) ∧
      (∀ p ∈ l, e.createdAt ≤ p.2.createdAt) := by
  match l with
  | [] => simp [oldestKey, oldestAux] at h
  | p :: ps =>
      simp only [oldestKey, oldestAux] at h
      obtain ⟨⟨k', t⟩, hres, rfl⟩ := Option.map_eq_some'.mp h
      obtain ⟨hle, hmin⟩ := oldestAux_min ps p.1 p.2.createdAt k' t hres
      rcases oldestAux_split ps p.1 p.2.createdAt k' t hres with ⟨rfl, rfl⟩ | hsplit
      · refine ⟨[], p.2, ps, by simp, by simp, ?_⟩
        intro q hq
        rcases List.mem_cons.mp hq with rfl | hq
        · exact le_refl _
        · exact hmin q hq
      · obtain ⟨l1, e, l2, rfl, rfl, hlt, hfirst⟩ := hsplit
        refine ⟨p :: l1, e, l2, by simp, ?_, ?_⟩
        · intro q hq
          rcases List.mem_cons.mp hq with rfl | hq
          · exact hlt
          · exact hfirst q hq
        · intro q hq
          rcases List.mem_cons.mp hq with rfl | hq
          · exact le_of_lt hlt
          · exact hmin q hq

theorem lookupKey_isSome_of_mem (k : String) (e : CacheEntry) :
    ∀ l : EntryList, (k, e) ∈ l → (lookupKey k l).isSome := by
  intro l
  induction l with
  | nil => simp
  | cons p ps ih =>
      intro hm
      rcases List.mem_cons.mp hm with rfl | hm
      · simp [lookupKey]
      · by_cases h : p.1 = k <;> simp [lookupKey, h, ih hm]

/-! ### `LoadAll` bookkeeping -/

/-- The list elements `LoadAll` actually stores: non-nil with non-empty uid. -/
def validOrders (orders : List (Option Order)) : List Order :=
  (orders.filterMap id).filter (fun o => o.orderUID ≠ "")

def buildEntries (now : Int) (l : List Order) (acc : EntryList) : EntryList :=
  l.foldl (fun acc o => insertEntry o.orderUID ⟨o, now, now⟩ acc) acc

/-- The last element of `l` whose uid is `uid` (later list elements
overwrite earlier ones in the map). -/
def lastWith (uid : String) (l : List Order) : Option Order :=
  l.foldl (fun acc o => if o.orderUID = uid then some o else acc) none

theorem foldl_last_from (uid : String) : ∀ (t : List Order) (a : Option Order),
    t.foldl (fun acc o => if o.orderUID = uid then some o else acc) a =
      match lastWith uid t with
      | some o => some o
      | none => a := by
  intro t
  induction t with
  | nil => intro a; simp [lastWith]
  | cons o t' ih =>
      intro a
      show List.foldl _ (if o.orderUID = uid then some o else a) t' = _
      rw [ih]
      have h2 : lastWith uid (o :: t') =
          match lastWith uid t' with
          | some o' => some o'
          | none => if o.orderUID = uid then some o else none := by
        show List.foldl _ (if o.orderUID = uid then some o else none) t' = _
        rw [ih]
      rw [h2]
      rcases lastWith uid t' with _ | o' <;> by_cases h : o.orderUID = uid <;> simp [h]

theorem lastWith_cons (uid : String) (o : Order) (t : List Order) :
    lastWith uid (o :: t) =
      match lastWith uid t with
      | some o' => some o'
      | none => if o.orderUID = uid then some o else none := by
  show List.foldl _ (if o.orderUID = uid then some o else none) t = _
  rw [foldl_last_from]

theorem buildEntries_lookup (now : Int) : ∀ (l : List Order) (acc : EntryList)
    (uid : String),
    lookupKey uid (buildEntries now l acc) =
      match lastWith uid l with
      | some o => some ⟨o, now, now⟩
      | none => lookupKey uid acc := by
  intro l
  induction l with
  | nil => intro acc uid; simp [buildEntries, lastWith]
  | cons o t ih =>
      intro acc uid
      show lookupKey uid (buildEntries now t (insertEntry o.orderUID ⟨o, now, now⟩ acc)) = _
      rw [ih, lastWith_cons]
      rcases h : lastWith uid t with _ | o'
      · by_cases hu : o.orderUID = uid
        · subst hu
          simp [lookupKey_insert_self]
        · simp only [if_neg hu]
          exact lookupKey_insert_ne o.orderUID uid _ (fun he => hu he.symm) acc
      · rfl

theorem lastWith_eq_none (uid : String) : ∀ l : List Order,
    lastWith uid l = none ↔ ∀ o ∈ l, o.orderUID ≠ uid := by
  intro l
  induction l with
  | nil => simp [lastWith]
  | cons o t ih =>
      rw [lastWith_cons]
      rcases h : lastWith uid t with _ | o'
      · rw [h] at ih
        by_cases hu : o.orderUID = uid
        · simp only [if_pos hu]
          constructor
          · intro hc; cases hc
          · intro hall; exact absurd hu (hall o (List.mem_cons_self o t))
        · simp only [if_neg hu]
          constructor
          · intro _ x hx
            rcases List.mem_cons.mp hx with rfl | hx
            · exact hu
            · exact (ih.mp rfl) x hx
          · intro _; trivial
      · rw [h] at ih
        constructor
        · intro hc; cases hc
        · intro hall
          exact absurd (ih.mpr fun x hx => hall x (List.mem_cons_of_mem _ hx))
            (by simp)

theorem buildEntries_append (now : Int) (l : List Order) (o : Order)
    (acc : EntryList) :
    buildEntries now (l ++ [o]) acc =
      insertEntry o.orderUID ⟨o, now, now⟩ (buildEntries now l acc) := by
  simp [buildEntries, List.foldl_append]

theorem buildEntries_length (now : Int) (l : List Order) :
    (buildEntries now l []).length = (l.map Order.orderUID).toFinset.card := by
  induction l using List.reverseRecOn with
  | nil => simp [buildEntries]
  | append_singleton t o ih =>
      have hlook : (lookupKey o.orderUID (buildEntries now t [])).isSome ↔
          o.orderUID ∈ t.map Order.orderUID := by
        rw [buildEntries_lookup]
        rcases h : lastWith o.orderUID t with _ | x
        · rw [lastWith_eq_none] at h
          simp only [lookupKey, Option.isSome_none]
          constructor
          · intro hc; cases hc
          · intro hm
            obtain ⟨x, hx, hxe⟩ := List.mem_map.mp hm
            exact absurd hxe (h x hx)
        · simp only [Option.isSome_some, true_iff]
          have hne : ¬ (lastWith o.orderUID t = none) := by rw [h]; simp
          rw [lastWith_eq_none] at hne
          push_neg at hne
          obtain ⟨x, hx, hxe⟩ := hne
          exact List.mem_map.mpr ⟨x, hx, hxe⟩
      have hset : ((t ++ [o]).map Order.orderUID).toFinset =
          insert o.orderUID (t.map Order.orderUID).toFinset := by
        ext x
        simp [or_comm]
      rw [buildEntries_append, insertEntry_length, hset]
      by_cases hm : o.orderUID ∈ t.map Order.orderUID
      · rw [if_pos (hlook.mpr hm), ih, Finset.card_insert_of_mem (List.mem_toFinset.mpr hm)]
      · rw [if_neg (fun hs => hm (hlook.mp hs)), ih,
          Finset.card_insert_of_not_mem (fun hs => hm (List.mem_toFinset.mp hs))]

theorem loadAll_fold_eq (now : Int) : ∀ (orders : List (Option Order))
    (acc : EntryList),
    orders.foldl (loadStep now) acc = buildEntries now (validOrders orders) acc := by
  intro orders
  induction orders with
  | nil => intro acc; simp [validOrders, buildEntries]
  | cons o t ih =>
      intro acc
      rcases o with _ | ord
      · show List.foldl (loadStep now) (loadStep now acc none) t = _
        rw [ih]
        simp [validOrders, loadStep]
      · show List.foldl (loadStep now) (loadStep now acc (some ord)) t = _
        rw [ih]
        by_cases hu : ord.orderUID = ""
        · simp [validOrders, loadStep, hu, buildEntries]
        · have hv : validOrders (some ord :: t) = ord :: validOrders t := by
            simp [validOrders, List.filterMap_cons, List.filter_cons, hu]
          rw [hv]
          have hs : loadStep now acc (some ord) =
              insertEntry ord.orderUID ⟨ord, now, now⟩ acc := by
            simp [loadStep, hu]
          rw [hs]
          simp [buildEntries]

theorem oldestKey_isSome (l : EntryList) (h : l ≠ []) : (oldestKey l).isSome := by
  match l with
  | [] => exact absurd rfl h
  | p :: ps =>
      simp only [oldestKey, oldestAux, Option.isSome_map]
      clear h
      induction ps generalizing p with
      | nil => simp [oldestAux]
      | cons q qs ih =>
          simp only [oldestAux]
          by_cases hc : q.2.createdAt < p.2.createdAt <;> simp [hc, ih]

/-! ### Retry loop lemmas -/

theorem retryGo_invocations {E : Type} (cfg : RetryConfig) (op : Nat → Option E) :
    ∀ (remaining attempt : Nat),
      (retryGo cfg op attempt remaining).2.2 ≤ remaining := by
  intro remaining
  induction remaining with
  | zero => intro attempt; simp [retryGo]
  | succ r ih =>
      intro attempt
      simp only [retryGo]
      rcases op attempt with _ | e
      · simp
      · by_cases hr : r = 0
        · simp [hr]
        · simp only [if_neg hr]
          have h2 := ih (attempt + 1)
          show (retryGo cfg op (attempt + 1) r).2.2 + 1 ≤ r + 1
          omega

theorem retryGo_first_success {E : Type} (cfg : RetryConfig) (op : Nat → Option E) :
    ∀ (remaining attempt k : Nat), attempt ≤ k → k < attempt + remaining →
      op k = none → (∀ j, attempt ≤ j → j < k → op j ≠ none) →
      retryGo cfg op attempt remaining =
        (.success, (List.range' attempt (k - attempt)).map (calculateDelay cfg),
         k + 1 - attempt) := by
  intro remaining
  induction remaining with
  | zero => intro attempt k h1 h2; omega
  | succ r ih =>
      intro attempt k h1 h2 hk hfail
      by_cases he : attempt = k
      · subst he
        simp [retryGo, hk]
      · have hlt : attempt < k := by omega
        rcases ho : op attempt with _ | e
        · exact absurd ho (hfail attempt (le_refl _) hlt)
        · have hr : r ≠ 0 := by omega
          simp only [retryGo, ho, if_neg hr]
          rw [ih (attempt + 1) k (by omega) (by omega) hk
            (fun j hj1 hj2 => hfail j (by omega) hj2)]
          have hrange : List.range' attempt (k - attempt) =
              attempt :: List.range' (attempt + 1) (k - (attempt + 1)) := by
            have : k - attempt = (k - (attempt + 1)) + 1 := by omega
            rw [this, List.range'_succ]
          rw [hrange]
          simp only [List.map_cons, Prod.mk.injEq]
          refine ⟨trivial, trivial, by omega⟩

theorem retryGo_all_fail {E : Type} (cfg : RetryConfig) (op : Nat → Option E) :
    ∀ (remaining attempt : Nat), 1 ≤ remaining →
      (∀ j, attempt ≤ j → j < attempt + remaining → op j ≠ none) →
      ∃ e, op (attempt + remaining - 1) = some e ∧
        retryGo cfg op attempt remaining =
          (.exhausted cfg.maxAttempts e,
           (List.range' attempt (remaining - 1)).map (calculateDelay cfg),
           remaining) := by
  intro remaining
  induction remaining with
  | zero => intro attempt h1; omega
  | succ r ih =>
      intro attempt _ hfail
      rcases ho : op attempt with _ | e
      · exact absurd ho (hfail attempt (le_refl _) (by omega))
      · by_cases hr : r = 0
        · subst hr
          refine ⟨e, by simpa using ho, ?_⟩
          simp [retryGo, ho]
        · obtain ⟨e2, he2, hrec⟩ := ih (attempt + 1) (by omega)
            (fun j hj1 hj2 => hfail j (by omega) (by omega))

          refine ⟨e2, by rw [show attempt + (r + 1) - 1 = attempt + 1 + r - 1 by omega]; exact he2, ?_⟩
          simp only [retryGo, ho, if_neg hr]
          rw [hrec]
          have hrange : List.range' attempt (r + 1 - 1) =
              attempt :: List.range' (attempt + 1) (r - 1) := by
            have h1 : r + 1 - 1 = (r - 1) + 1 := by omega
            rw [h1, List.range'_succ]
          rw [hrange]
          simp only [List.map_cons, Prod.mk.injEq]

/-! ### `set` followed by `get` -/

theorem set_then_get (c : OrderCache) (o : Order) (now t : Int)
    (huid : o.orderUID ≠ "") (ht : t - now ≤ c.ttl) :
    ((c.set (some o) now).get o.orderUID t).1 = some o := by
  have hset : (c.set (some o) now).orders =
      insertEntry o.orderUID ⟨o, now, now⟩
        (if c.orders.length ≥ c.maxSize then c.evictOldest else c).orders := by
    simp [OrderCache.set, huid]
  have hlook : lookupKey o.orderUID (c.set (some o) now).orders =
      some ⟨o, now, now⟩ := by
    rw [hset]
    exact lookupKey_insert_self _ _ _
  have httl : (c.set (some o) now).ttl = c.ttl := by
    simp only [OrderCache.set, if_neg huid]
    split
    · unfold OrderCache.evictOldest
      split <;> rfl
    · rfl
  simp only [OrderCache.get, hlook]
  rw [httl, if_neg (show ¬ t - now > c.ttl by omega)]

/-! ## Claim C1 — cache `get` and TTL -/

/-- C1 (amended): `get(uid)` returns a hit only when the entry satisfies
`created_at + ttl ≥ now` (the code treats `now = created_at + ttl` as fresh);
a hit refreshes `last_access` and counts one hit.  When the entry exists and
`now − created_at > ttl`, `get` removes the entry, increments the
expirations counter by exactly one and the misses counter by exactly one,
and returns a miss. -/
theorem c1_get_ttl_spec (c : OrderCache) (uid : String) (now : Int) :
    (∀ o c2, c.get uid now = (some o, c2) →
      ∃ e, lookupKey uid c.orders = some e ∧ o = e.order ∧
        e.createdAt + c.ttl ≥ now ∧
        lookupKey uid c2.orders = some { e with lastAccess := now } ∧
        c2.hits = c.hits + 1 ∧ c2.misses = c.misses ∧
        c2.expirations = c.expirations) ∧
    (∀ e, lookupKey uid c.orders = some e → now - e.createdAt > c.ttl →
      (c.get uid now).1 = none ∧
      lookupKey uid (c.get uid now).2.orders = none ∧
      (c.get uid now).2.expirations = c.expirations + 1 ∧
      (c.get uid now).2.misses = c.misses + 1) := by
  constructor
  · intro o c2 h
    rcases hl : lookupKey uid c.orders with _ | e
    · simp only [OrderCache.get, hl] at h
      simp at h
    · simp only [OrderCache.get, hl] at h
      by_cases hexp : now - e.createdAt > c.ttl
      · rw [if_pos hexp] at h
        simp at h
      · rw [if_neg hexp] at h
        rw [Prod.mk.injEq] at h
        obtain ⟨ho, hc2⟩ := h
        refine ⟨e, rfl, (Option.some.injEq _ _ ▸ ho).symm, by omega, ?_, ?_, ?_, ?_⟩
        · rw [← hc2]
          exact lookupKey_insert_self uid _ c.orders
        · rw [← hc2]
        · rw [← hc2]
        · rw [← hc2]
  · intro e hl hexp
    simp only [OrderCache.get, hl, if_pos hexp]
    refine ⟨by simp, lookupKey_eraseKey_self uid c.orders, by simp, by simp⟩

/-- Witness for `c1_get_ttl_spec`: both branches at concrete inputs. -/
theorem c1_get_ttl_spec_witness :
    lookupKey "a" (cacheW.get "a" 10).2.orders = none ∧
    (cacheW.get "a" 10).2.expirations = cacheW.expirations + 1 ∧
    (cacheW.get "a" 10).2.misses = cacheW.misses + 1 := by
  have h := (c1_get_ttl_spec cacheW "a" 10).2 entryA (by decide) (by decide)
  exact ⟨h.2.1, h.2.2.1, h.2.2.2⟩

/-- C1 counterexample: at `now = created_at + ttl` the code still returns a
hit, so a hit does not guarantee `created_at + ttl > now`. -/
theorem c1_ttl_boundary_counterexample :
    (cacheW.get "a" 5).1 = some ordA ∧
    lookupKey "a" cacheW.orders = some entryA ∧
    ¬ (entryA.createdAt + cacheW.ttl > 5) := by decide

/-! ## Claim C2 — `set` size bound and read-back -/

/-- C2 (amended): for every cache state whose size already respects
`max_size` (with `max_size ≥ 1`), immediately after `set(order)` (order
non-null, uid non-empty) the cache size is at most `max_size`, and
`get(order.uid)` returns that order as long as the entry has not expired
(`t − now ≤ ttl`), been evicted or deleted.  States produced by `LoadAll`
can exceed `max_size`, and `set` does not restore the bound there. -/
theorem c2_set_size_and_get (c : OrderCache) (o : Order) (now t : Int)
    (huid : o.orderUID ≠ "") (hsz : c.orders.length ≤ c.maxSize)
    (hmax : 1 ≤ c.maxSize) (ht : t - now ≤ c.ttl) :
    (c.set (some o) now).orders.length ≤ c.maxSize ∧
    ((c.set (some o) now).get o.orderUID t).1 = some o := by
  have hset : (c.set (some o) now).orders =
      insertEntry o.orderUID ⟨o, now, now⟩
        (if c.orders.length ≥ c.maxSize then c.evictOldest else c).orders := by
    simp [OrderCache.set, huid]
  constructor
  · rw [hset]
    by_cases hge : c.orders.length ≥ c.maxSize
    · rw [if_pos hge]
      have hne : c.orders ≠ [] := by
        intro h0
        rw [h0] at hge
        simp only [List.length_nil, ge_iff_le, Nat.le_zero] at hge
        omega
      obtain ⟨k, hk⟩ := Option.isSome_iff_exists.mp (oldestKey_isSome c.orders hne)
      obtain ⟨l1, e, l2, hdecomp, _, _⟩ := oldestKey_spec c.orders k hk
      have hmem : (k, e) ∈ c.orders := by rw [hdecomp]; simp
      have hlt : (eraseKey k c.orders).length < c.orders.length :=
        eraseKey_length_lt k c.orders (lookupKey_isSome_of_mem k e c.orders hmem)
      have hev : c.evictOldest.orders = eraseKey k c.orders := by
        simp [OrderCache.evictOldest, hk]
      rw [hev, insertEntry_length]
      split <;> omega
    · rw [if_neg hge, insertEntry_length]
      push_neg at hge
      split <;> omega
  · exact set_then_get c o now t huid ht

/-- Witness for `c2_set_size_and_get`. -/
theorem c2_set_size_and_get_witness :
    (cacheFull1.set (some ordB) 3).orders.length ≤ cacheFull1.maxSize ∧
    ((cacheFull1.set (some ordB) 3).get "b" 4).1 = some ordB := by
  have h := c2_set_size_and_get cacheFull1 ordB 3 4 (by decide) (by decide)
    (by decide) (by decide)
  exact h

/-- C2 counterexample: after `LoadAll` overfills the cache (a reachable
state — startup warm-load applies no size bound), `set` evicts only one
entry, so the size after `set` exceeds `max_size`. -/
theorem c2_size_counterexample :
    ((cacheEmpty1.loadAll [some ordA, some ordB] 0).set (some ordC) 0).orders.length = 2 ∧
    ¬ (((cacheEmpty1.loadAll [some ordA, some ordB] 0).set (some ordC) 0).orders.length ≤
        cacheEmpty1.maxSize) := by decide

/-! ## Claim C3 — `set` insert/replace and eviction policy -/

/-- C3 (amended): `set(order)` is a no-op when the order is null or its uid
is empty; otherwise it inserts or replaces the entry for that uid, and it
removes exactly one entry — the first in iteration order with the oldest
`created_at` — if and only if the cache is non-empty and its size is at
least `max_size` before insertion.  (In particular it also evicts when the
uid is already present, although replacing it would not grow the map.) -/
theorem c3_set_policy (c : OrderCache) (now : Int) :
    (c.set none now = c) ∧
    (∀ o : Order, o.orderUID = "" → c.set (some o) now = c) ∧
    (∀ o : Order, o.orderUID ≠ "" →
      lookupKey o.orderUID (c.set (some o) now).orders = some ⟨o, now, now⟩ ∧
      (c.orders.length ≥ c.maxSize → c.orders ≠ [] →
        ∃ k e l1 l2, c.orders = l1 ++ (k, e) :: l2 ∧
          (∀ p ∈ l1, e.createdAt < p.2.createdAt) ∧
          (∀ p ∈ c.orders, e.createdAt ≤ p.2.createdAt) ∧
          (c.set (some o) now).evictions = c.evictions + 1 ∧
          (c.set (some o) now).orders =
            insertEntry o.orderUID ⟨o, now, now⟩ (eraseKey k c.orders)) ∧
      (¬ (c.orders.length ≥ c.maxSize ∧ c.orders ≠ []) →
        (c.set (some o) now).evictions = c.evictions ∧
        (c.set (some o) now).orders =
          insertEntry o.orderUID ⟨o, now, now⟩ c.orders)) := by
  refine ⟨rfl, ?_, ?_⟩
  · intro o ho
    simp [OrderCache.set, ho]
  · intro o ho
    have hset : (c.set (some o) now).orders =
        insertEntry o.orderUID ⟨o, now, now⟩
          (if c.orders.length ≥ c.maxSize then c.evictOldest else c).orders := by
      simp [OrderCache.set, ho]
    have hsetev : (c.set (some o) now).evictions =
        (if c.orders.length ≥ c.maxSize then c.evictOldest else c).evictions := by
      simp [OrderCache.set, ho]
    refine ⟨?_, ?_, ?_⟩
    · rw [hset]
      exact lookupKey_insert_self _ _ _
    · intro hge hne
      obtain ⟨k, hk⟩ := Option.isSome_iff_exists.mp (oldestKey_isSome c.orders hne)
      obtain ⟨l1, e, l2, hdecomp, hfirst, hmin⟩ := oldestKey_spec c.orders k hk
      refine ⟨k, e, l1, l2, hdecomp, hfirst, hmin, ?_, ?_⟩
      · rw [hsetev, if_pos hge]
        simp [OrderCache.evictOldest, hk]
      · rw [hset, if_pos hge]
        have hev : c.evictOldest.orders = eraseKey k c.orders := by
          simp [OrderCache.evictOldest, hk]
        rw [hev]
    · intro hno
      by_cases hge : c.orders.length ≥ c.maxSize
      · have hne : c.orders = [] := by
          by_contra hne
          exact hno ⟨hge, hne⟩
        have hk : oldestKey c.orders = none := by
          rw [hne]
          rfl
        constructor
        · rw [hsetev, if_pos hge]
          simp [OrderCache.evictOldest, hk]
        · rw [hset, if_pos hge]
          have hev : c.evictOldest.orders = c.orders := by
            simp [OrderCache.evictOldest, hk]
          rw [hev]
      · exact ⟨by rw [hsetev, if_neg hge], by rw [hset, if_neg hge]⟩

/-- Witness for `c3_set_policy`: eviction branch on a full cache. -/
theorem c3_set_policy_witness :
    lookupKey "b" (cacheFull1.set (some ordB) 3).orders = some ⟨ordB, 3, 3⟩ ∧
    (cacheFull1.set (some ordB) 3).evictions = cacheFull1.evictions + 1 := by
  have h := (c3_set_policy cacheFull1 3).2.2 ordB (by decide)
  obtain ⟨k, e, l1, l2, _, _, _, hev, _⟩ := h.2.1 (by decide) (by decide)
  exact ⟨h.1, hev⟩

/-- C3 counterexample: with a full cache (`size = max_size = 1`) holding the
same uid, `set` still evicts (the eviction counter increments) although the
insertion would only replace the entry and would not make the cache exceed
`max_size`. -/
theorem c3_evict_iff_counterexample :
    (cacheFull1.set (some ordA) 7).evictions = cacheFull1.evictions + 1 ∧
    ¬ ((insertEntry "a" ⟨ordA, 7, 7⟩ cacheFull1.orders).length > cacheFull1.maxSize) := by
  decide

/-! ## Claim C10 — `LoadAll` replaces the whole cache without a size bound -/

/-- C10: `LoadAll` replaces the entire cache content: the result is
independent of the prior entries, exactly the non-nil orders with non-empty
uid are inserted, a later element with the same uid overwrites an earlier
one (`lastWith`), the statistics counters (in particular `evictions`) are
unchanged, and the final size equals the number of distinct valid uids in
the input with no `max_size` bound applied. -/
theorem c10_loadAll_spec (c : OrderCache) (orders : List (Option Order))
    (now : Int) (uid : String) :
    ((c.loadAll orders now).evictions = c.evictions ∧
     (c.loadAll orders now).hits = c.hits ∧
     (c.loadAll orders now).misses = c.misses ∧
     (c.loadAll orders now).expirations = c.expirations) ∧
    (c.loadAll orders now).orders = (cacheEmpty1.loadAll orders now).orders ∧
    lookupKey uid (c.loadAll orders now).orders =
      (lastWith uid (validOrders orders)).map
        (fun o => (⟨o, now, now⟩ : CacheEntry)) ∧
    (c.loadAll orders now).orders.length =
      ((validOrders orders).map Order.orderUID).toFinset.card := by
  have horders : (c.loadAll orders now).orders =
      buildEntries now (validOrders orders) [] := by
    simp only [OrderCache.loadAll]
    exact loadAll_fold_eq now orders []
  refine ⟨⟨rfl, rfl, rfl, rfl⟩, ?_, ?_, ?_⟩
  · rw [horders]
    simp only [OrderCache.loadAll]
    exact (loadAll_fold_eq now orders []).symm
  · rw [horders, buildEntries_lookup]
    rcases lastWith uid (validOrders orders) with _ | o <;> simp [lookupKey]
  · rw [horders, buildEntries_length]

/-! ## Claim C4 — circuit breaker transition table -/

/-- C4 (amended): the §4.4 transition table holds for every breaker state
and event with one correction: in Open, the admission that moves the breaker
to Half-Open requires `now` strictly after `next_attempt` (`now.After`);
an admission at `now = next_attempt` is still rejected with a typed Open
error.  All other rows are as claimed: Closed success resets the failure
counter; a Closed failure reaching `failure_threshold` opens with
`next_attempt = now + timeout`; the Open→Half-Open move resets the
success/request counters; a Half-Open success reaching `success_threshold`
closes with all counters reset; a Half-Open failure re-opens re-arming
`next_attempt`; Half-Open admission is rejected while
`requests ≥ max_requests`. -/
theorem c4_breaker_transitions (cb : CircuitBreaker) (now : Int) (s : Bool) :
    (cb.state = .closed →
      (cb.execute now s).1 = .completed s ∧
      (cb.execute now true).2.state = .closed ∧
      (cb.execute now true).2.failureCount = 0 ∧
      (cb.execute now false).2.failureCount = cb.failureCount + 1 ∧
      (cb.failureCount + 1 ≥ cb.config.failureThreshold →
        (cb.execute now false).2.state = .opened ∧
        (cb.execute now false).2.nextAttempt = now + cb.config.timeout) ∧
      (cb.failureCount + 1 < cb.config.failureThreshold →
        (cb.execute now false).2.state = .closed)) ∧
    (cb.state = .opened → now ≤ cb.nextAttempt →
      (cb.execute now s).1 = .rejected .opened ∧ (cb.execute now s).2 = cb) ∧
    (cb.state = .opened → now > cb.nextAttempt →
      (cb.check now).1 = true ∧ (cb.check now).2.state = .halfOpen ∧
      (cb.check now).2.successCount = 0 ∧ (cb.check now).2.requestCount = 0) ∧
    (cb.state = .halfOpen → cb.requestCount ≥ cb.config.maxRequests →
      (cb.execute now s).1 = .rejected .halfOpen ∧ (cb.execute now s).2 = cb) ∧
    (cb.state = .halfOpen → cb.requestCount < cb.config.maxRequests →
      (cb.execute now s).1 = .completed s ∧
      ((cb.execute now true).2.state =
        if cb.successCount + 1 ≥ cb.config.successThreshold then .closed
        else .halfOpen) ∧
      (cb.successCount + 1 ≥ cb.config.successThreshold →
        (cb.execute now true).2.failureCount = 0 ∧
        (cb.execute now true).2.successCount = 0 ∧
        (cb.execute now true).2.requestCount = 0) ∧
      (cb.execute now false).2.state = .opened ∧
      (cb.execute now false).2.nextAttempt = now + cb.config.timeout) := by
  have hexcl : cb.state = .closed → ∀ b : Bool,
      cb.execute now b = (.completed b, cb.record b now) := by
    intro h b
    simp [CircuitBreaker.execute, CircuitBreaker.check, h]
  refine ⟨?_, ?_, ?_, ?_, ?_⟩
  · intro h
    refine ⟨by rw [hexcl h], ?_, ?_, ?_, ?_, ?_⟩
    · rw [hexcl h]
      simp [CircuitBreaker.record, h]
    · rw [hexcl h]
      simp [CircuitBreaker.record, h]
    · rw [hexcl h]
      by_cases hth : cb.failureCount + 1 ≥ cb.config.failureThreshold <;>
        simp [CircuitBreaker.record, h, hth]
    · intro hth
      rw [hexcl h]
      simp [CircuitBreaker.record, h, hth]
    · intro hth
      rw [hexcl h]
      simp [CircuitBreaker.record, h,
        show ¬ cb.failureCount + 1 ≥ cb.config.failureThreshold by omega]
  · intro h hle
    have hc : cb.check now = (false, cb) := by
      simp [CircuitBreaker.check, h, show ¬ now > cb.nextAttempt by omega]
    simp [CircuitBreaker.execute, hc, h]
  · intro h hgt
    simp only [CircuitBreaker.check, h, if_pos hgt]
    simp
  · intro h hge
    have hc : cb.check now = (false, cb) := by
      simp only [CircuitBreaker.check, h]
      rw [decide_eq_false (by omega : ¬ cb.requestCount < cb.config.maxRequests)]
    simp [CircuitBreaker.execute, hc, h]
  · intro h hlt
    have hc : cb.check now = (true, cb) := by
      simp only [CircuitBreaker.check, h]
      rw [decide_eq_true hlt]
    have hexh : ∀ b : Bool, cb.execute now b = (.completed b, cb.record b now) := by
      intro b
      simp [CircuitBreaker.execute, hc]
    refine ⟨by rw [hexh], ?_, ?_, ?_, ?_⟩
    · rw [hexh]
      by_cases hy : cb.successCount + 1 ≥ cb.config.successThreshold
      · rw [if_pos hy]
        simp [CircuitBreaker.record, h, hy]
      · rw [if_neg hy]
        simp [CircuitBreaker.record, h, hy]
    · intro hth
      rw [hexh]
      simp [CircuitBreaker.record, h, hth]
    · rw [hexh]
      simp [CircuitBreaker.record, h]
    · rw [hexh]
      simp [CircuitBreaker.record, h]

/-- Witness for `c4_breaker_transitions`: the Half-Open rows at a concrete
breaker. -/
theorem c4_breaker_transitions_witness :
    (cbHalfW.execute 20 true).1 = .completed true ∧
    (cbHalfW.execute 20 true).2.state = BState.closed ∧
    (cbHalfW.execute 20 false).2.state = BState.opened := by
  have h := (c4_breaker_transitions cbHalfW 20 true).2.2.2.2 (by decide) (by decide)
  refine ⟨h.1, ?_, h.2.2.2.1⟩
  have h2 := h.2.1
  rwa [if_pos (by decide)] at h2

/-- C4 counterexample: an admission attempt at exactly `now = next_attempt`
(hence `now ≥ next_attempt`) is rejected with the typed Open error instead
of moving to Half-Open; the code requires `now` strictly after
`next_attempt`. -/
theorem c4_open_boundary_counterexample :
    (cbClosedW.execute 0 false).2.state = BState.opened ∧
    (cbClosedW.execute 0 false).2.nextAttempt = 10 ∧
    (10 : Int) ≥ (cbClosedW.execute 0 false).2.nextAttempt ∧
    ((cbClosedW.execute 0 false).2.execute 10 true).1 =
      ExecOutcome.rejected BState.opened ∧
    ((cbClosedW.execute 0 false).2.execute 10 true).2.state = BState.opened := by
  decide

/-! ## Claim C5 — retry executor -/

/-- C5 (amended): the retry executor invokes the operation at most
`max_attempts` times, stopping at the first success; the delay slept after
a failed attempt `k` (i.e. before attempt `k+1`) is
`min(initial_delay · multiplier^(k-1), max_delay)` — one exponent lower
than the claim's "before attempt k" indexing; and when the final attempt
returns an error, the returned error wraps the last error together with
the attempt count. -/
theorem c5_retry_spec {E : Type} (cfg : RetryConfig) (op : Nat → Option E) :
    ((executeWithRetry cfg op).2.2 ≤ cfg.maxAttempts) ∧
    (∀ k, calculateDelay cfg k =
      min (cfg.initialDelay * cfg.multiplier ^ (k - 1)) cfg.maxDelay) ∧
    (∀ k, 1 ≤ k → k ≤ cfg.maxAttempts → op k = none →
      (∀ j, 1 ≤ j → j < k → op j ≠ none) →
      executeWithRetry cfg op =
        (.success, (List.range' 1 (k - 1)).map (calculateDelay cfg), k)) ∧
    (1 ≤ cfg.maxAttempts → (∀ j, 1 ≤ j → j ≤ cfg.maxAttempts → op j ≠ none) →
      ∃ e, op cfg.maxAttempts = some e ∧
        executeWithRetry cfg op =
          (.exhausted cfg.maxAttempts e,
           (List.range' 1 (cfg.maxAttempts - 1)).map (calculateDelay cfg),
           cfg.maxAttempts)) := by
  refine ⟨?_, ?_, ?_, ?_⟩
  · exact retryGo_invocations cfg op cfg.maxAttempts 1
  · intro k
    unfold calculateDelay
    rcases le_or_lt (cfg.initialDelay * cfg.multiplier ^ (k - 1)) cfg.maxDelay with h | h
    · rw [if_neg (not_lt.mpr h), min_eq_left h]
    · rw [if_pos h, min_eq_right (le_of_lt h)]
  · intro k h1 h2 hk hfail
    have := retryGo_first_success cfg op cfg.maxAttempts 1 k h1 (by omega) hk hfail
    rw [executeWithRetry, this]
    congr 1
  · intro hmax hfail
    obtain ⟨e, he, hrun⟩ := retryGo_all_fail cfg op cfg.maxAttempts 1 (by omega)
      (fun j hj1 hj2 => hfail j hj1 (by omega))
    refine ⟨e, ?_, ?_⟩
    · rwa [show 1 + cfg.maxAttempts - 1 = cfg.maxAttempts by omega] at he
    · rw [executeWithRetry, hrun]

/-- Witness for `c5_retry_spec`: two attempts, first fails, second
succeeds; one delay of 100 is slept and the operation runs twice. -/
theorem c5_retry_spec_witness :
    executeWithRetry retryCfgW (fun j => if j = 2 then none else some (0 : Nat)) =
      (.success, [100], 2) := by
  have h := (c5_retry_spec retryCfgW
    (fun j => if j = 2 then none else some (0 : Nat))).2.2.1 2
    (by omega) (by decide) (by decide)
    (fun j hj1 hj2 => by
      have hj : j = 1 := by omega
      subst hj
      decide)
  rw [h]
  have h1 : calculateDelay retryCfgW 1 = 100 := by
    norm_num [calculateDelay, retryCfgW]
  norm_num [List.range'_one, h1]

/-- C5 counterexample: with `initial_delay = 100`, `multiplier = 2`,
`max_attempts = 2` and an always-failing operation, the single delay slept
before attempt 2 is 100, not `min(initial_delay · multiplier^(2-1),
max_delay) = 200` as the claim's indexing asserts. -/
theorem c5_delay_index_counterexample :
    (executeWithRetry retryCfgW (fun _ => some (0 : Nat))).2.1 = [100] ∧
    ¬ ((100 : ℚ) =
        min (retryCfgW.initialDelay * retryCfgW.multiplier ^ (2 - 1))
          retryCfgW.maxDelay) := by
  constructor
  · show (retryGo retryCfgW (fun _ => some (0 : Nat)) 1 2).2.1 = [100]
    have h1 : calculateDelay retryCfgW 1 = 100 := by
      norm_num [calculateDelay, retryCfgW]
    simp [retryGo, h1]
  · have hmin : min (retryCfgW.initialDelay * retryCfgW.multiplier ^ (2 - 1))
        retryCfgW.maxDelay = 200 := by
      rw [min_eq_left (by norm_num [retryCfgW])]
      norm_num [retryCfgW]
    rw [hmin]
    norm_num

/-! ## Claim C7 — HTTP GET /order/{uid} -/

/-- C7: `GET /order/{uid}` responds 400 when the uid is empty; otherwise,
on a cache hit it responds 200 with that order; on a miss followed by a
successful non-null store result it responds 200, populates the cache, and
— provided the store returns the order under its own uid (the SQL query
selects `WHERE order_uid = $1`) and `ttl ≥ 0` — the next cache get for that
uid is a hit returning the stored order; on a miss with no store, a store
error, or a null result it responds 404. -/
theorem c7_handle_get_order (cache : OrderCache)
    (db : Option (String → Except String (Option Order))) (uid : String)
    (now : Int) :
    (uid = "" → handleGetOrder cache db uid now = (.badRequest, cache)) ∧
    (∀ o, uid ≠ "" → (cache.get uid now).1 = some o →
      handleGetOrder cache db uid now = (.okJson o, (cache.get uid now).2)) ∧
    (∀ store dbo, uid ≠ "" → (cache.get uid now).1 = none →
      db = some store → store uid = .ok (some dbo) →
      handleGetOrder cache db uid now =
        (.okJson dbo, (cache.get uid now).2.set (some dbo) now) ∧
      (dbo.orderUID = uid → 0 ≤ cache.ttl →
        (((cache.get uid now).2.set (some dbo) now).get uid now).1 = some dbo)) ∧
    (uid ≠ "" → (cache.get uid now).1 = none →
      (db = none ∨ (∃ store, db = some store ∧ store uid = .ok none) ∨
        (∃ store err, db = some store ∧ store uid = .error err)) →
      (handleGetOrder cache db uid now).1 = .notFound) := by
  refine ⟨?_, ?_, ?_, ?_⟩
  · intro h
    simp [handleGetOrder, h]
  · intro o hne hget
    simp [handleGetOrder, if_neg hne, hget]
  · intro store dbo hne hget hdb hstore
    have httl : (cache.get uid now).2.ttl = cache.ttl := by
      unfold OrderCache.get
      split
      · rfl
      · split <;> rfl
    constructor
    · simp [handleGetOrder, if_neg hne, hget, hdb, hstore]
    · intro huid httl0
      have h := set_then_get ((cache.get uid now).2) dbo now now
        (by rw [huid]; exact hne) (by omega)
      rwa [huid] at h
  · intro hne hget hcase
    rcases hcase with h | ⟨store, hdb, hstore⟩ | ⟨store, err, hdb, hstore⟩ <;>
      simp [handleGetOrder, if_neg hne, hget, *]

/-- Witness for `c7_handle_get_order`: miss, store hit, populate, next get
hits. -/
theorem c7_handle_get_order_witness :
    handleGetOrder cacheEmpty1 (some fun _ => .ok (some ordA)) "a" 0 =
      (.okJson ordA, (cacheEmpty1.get "a" 0).2.set (some ordA) 0) ∧
    (((cacheEmpty1.get "a" 0).2.set (some ordA) 0).get "a" 0).1 = some ordA := by
  have h := (c7_handle_get_order cacheEmpty1 (some fun _ => .ok (some ordA))
    "a" 0).2.2.1 (fun _ => .ok (some ordA)) ordA (by decide) (by decide) rfl rfl
  exact ⟨h.1, h.2 (by decide) (by decide)⟩

/-! ## Claim C8 — validation failures and the retry executor -/

/-- C8 (amended): a message whose decoded order fails validation is retried
like any other failure: the operation is re-invoked until all
`max_attempts` are spent, every attempt returns the same validation error,
and the message is sent to the dead-letter sink only after the retries are
exhausted.  There is no fast path that skips the retry executor. -/
theorem c8_validation_retried (cfg : RetryConfig) (env : PipelineEnv)
    (order : Order) (m : String) (hmax : 1 ≤ cfg.maxAttempts)
    (hdec : env.decodeRes = some order)
    (hval : env.validateRes order = some m) :
    (handleMessage cfg env).2.1 = cfg.maxAttempts ∧
    (handleMessage cfg env).1 = .exhausted cfg.maxAttempts (.validation m) ∧
    (handleMessage cfg env).2.2 = true := by
  have hop : ∀ j, processMessage env j = some (.validation m) := by
    intro j
    simp [processMessage, hdec, hval]
  obtain ⟨e, he, hrun⟩ := retryGo_all_fail cfg (processMessage env)
    cfg.maxAttempts 1 (by omega) (fun j _ _ => by rw [hop j]; simp)
  have heq : e = ProcErr.validation m := by
    rw [hop (1 + cfg.maxAttempts - 1)] at he
    exact (Option.some.inj he).symm
  subst heq
  refine ⟨?_, ?_, ?_⟩ <;> simp [handleMessage, executeWithRetry, hrun]

/-- Witness for `c8_validation_retried`. -/
theorem c8_validation_retried_witness :
    (handleMessage retryCfg3 envValFail).2.1 = 3 ∧
    (handleMessage retryCfg3 envValFail).2.2 = true := by
  have h := c8_validation_retried retryCfg3 envValFail ordA "validation failed"
    (by decide) rfl rfl
  exact ⟨h.1, h.2.2⟩

/-- C8 counterexample: with `max_attempts = 3` and a message failing
validation, the operation is invoked three times — it is re-invoked after
the validation failure, against the claim. -/
theorem c8_validation_retry_counterexample :
    (handleMessage retryCfg3 envValFail).2.1 = 3 ∧
    ¬ ((handleMessage retryCfg3 envValFail).2.1 ≤ 1) := by
  have hop : ∀ j, processMessage envValFail j =
      some (.validation "validation failed") := by
    intro j
    simp [processMessage, envValFail]
  obtain ⟨e, _, hrun⟩ := retryGo_all_fail retryCfg3 (processMessage envValFail)
    retryCfg3.maxAttempts 1 (by decide) (fun j _ _ => by rw [hop j]; simp)
  have h3 : (handleMessage retryCfg3 envValFail).2.1 = 3 := by
    simp only [handleMessage, executeWithRetry, hrun]
    rfl
  exact ⟨h3, by omega⟩

/-! ## Claim C6 — validator payment equations -/

theorem collectErrors_eq_nil (l : List (Option String)) :
    collectErrors l = [] ↔ ∀ x ∈ l, x = none := by
  induction l with
  | nil => simp [collectErrors]
  | cons x t ih =>
      rcases x with _ | m
      · rw [show collectErrors (none :: t) = collectErrors t from rfl, ih]
        simp
      · constructor
        · intro h
          exact absurd h (by
            rw [show collectErrors (some m :: t) = m :: collectErrors t from rfl]
            simp)
        · intro h
          cases h (some m) (List.mem_cons_self _ _)

theorem ite_some_none_elim {α : Type} {c : Prop} [Decidable c] {m : α}
    {rest : Option α} (h : (if c then some m else rest) = none) :
    ¬ c ∧ rest = none := by
  by_cases hc : c
  · rw [if_pos hc] at h
    cases h
  · rw [if_neg hc] at h
    exact ⟨hc, h⟩

theorem validatePayment_none_eq (cfg : ValidationConfig) (p : Payment)
    (now : Int) (h : validatePayment cfg p now = none) :
    p.goodsTotal + p.deliveryCost = p.amount := by
  unfold validatePayment at h
  have e1 := ite_some_none_elim h
  have e2 := ite_some_none_elim e1.2
  have e3 := ite_some_none_elim e2.2
  have e4 := ite_some_none_elim e3.2
  have e5 := ite_some_none_elim e4.2
  have e6 := ite_some_none_elim e5.2
  have e7 := ite_some_none_elim e6.2
  have e8 := ite_some_none_elim e7.2
  have e9 := ite_some_none_elim e8.2
  have e10 := ite_some_none_elim e9.2
  have e11 := ite_some_none_elim e10.2
  have e12 := ite_some_none_elim e11.2
  have e13 := ite_some_none_elim e12.2
  have e14 := ite_some_none_elim e13.2
  have e15 := ite_some_none_elim e14.2
  have e16 := ite_some_none_elim e15.2
  exact not_not.mp e16.1

theorem validateBusinessLogic_none_eq (o : Order)
    (h : validateBusinessLogic o = none) :
    itemsTotal o.items = o.payment.goodsTotal := by
  unfold validateBusinessLogic at h
  have e1 := ite_some_none_elim h
  exact not_not.mp e1.1

/-- C6: the validator accepts an order only if
`payment.goods_total + payment.delivery_cost = payment.amount` and
Σ items[i].total_price = payment.goods_total; every order violating either
equation is rejected by `Validate`. -/
theorem c6_validator_equations (cfg : ValidationConfig) (now oya : Int)
    (o : Order) :
    (Validate cfg now oya (some o) = [] →
      o.payment.goodsTotal + o.payment.deliveryCost = o.payment.amount ∧
      itemsTotal o.items = o.payment.goodsTotal) ∧
    ((o.payment.goodsTotal + o.payment.deliveryCost ≠ o.payment.amount ∨
      itemsTotal o.items ≠ o.payment.goodsTotal) →
      Validate cfg now oya (some o) ≠ []) := by
  have hmain : Validate cfg now oya (some o) = [] →
      o.payment.goodsTotal + o.payment.deliveryCost = o.payment.amount ∧
      itemsTotal o.items = o.payment.goodsTotal := by
    intro h
    simp only [Validate] at h
    have hall := (collectErrors_eq_nil _).mp h
    have hp := hall ((validatePayment cfg o.payment now).map
      (fun e => "payment: " ++ e)) (by simp)
    have hb := hall ((validateBusinessLogic o).map
      (fun e => "business logic: " ++ e)) (by simp)
    rw [Option.map_eq_none'] at hp hb
    exact ⟨validatePayment_none_eq cfg o.payment now hp,
      validateBusinessLogic_none_eq o hb⟩
  refine ⟨hmain, ?_⟩
  intro hviol h
  rcases hviol with hv | hv
  · exact hv (hmain h).1
  · exact hv (hmain h).2

/-- Witness for `c6_validator_equations`: a concrete order accepted by the
full validator satisfies both equations, and breaking the payment equation
gets a concrete order rejected. -/
theorem c6_validator_equations_witness :
    Validate defaultValidationConfig wNow 0 (some wOrder) = [] ∧
    wOrder.payment.goodsTotal + wOrder.payment.deliveryCost =
      wOrder.payment.amount ∧
    itemsTotal wOrder.items = wOrder.payment.goodsTotal ∧
    Validate defaultValidationConfig wNow 0 (some wOrderBad) ≠ [] := by
  have hv : Validate defaultValidationConfig wNow 0 (some wOrder) = [] := by
    decide
  have h1 := (c6_validator_equations defaultValidationConfig wNow 0 wOrder).1 hv
  have h2 := (c6_validator_equations defaultValidationConfig wNow 0 wOrderBad).2
    (Or.inl (by decide))
  exact ⟨hv, h1.1, h1.2, h2⟩

/-! ## Claim C9 — token-bucket window bound -/

theorem refill_lastRefill_cases (cfg : RLConfig) (b : Bucket) (now : ℚ) :
    (refill cfg b now).lastRefill = b.lastRefill ∨
    (refill cfg b now).lastRefill = now := by
  unfold refill
  dsimp only
  split
  · exact Or.inl rfl
  · exact Or.inr rfl

theorem refill_lastRefill_le (cfg : RLConfig) (b : Bucket) (now : ℚ)
    (hlr : b.lastRefill ≤ now) : (refill cfg b now).lastRefill ≤ now := by
  rcases refill_lastRefill_cases cfg b now with h | h <;> rw [h]
  exact hlr

theorem refill_burst (cfg : RLConfig) (b : Bucket) (now : ℚ) :
    (refill cfg b now).burst = b.burst := by
  unfold refill
  dsimp only
  split
  · rfl
  · rfl

theorem refill_tokens_le_add (cfg : RLConfig) (b : Bucket) (now : ℚ)
    (hw : 0 < cfg.window) (hr : 0 ≤ reqQ cfg) (hlr : b.lastRefill ≤ now) :
    (refill cfg b now).tokens ≤
      b.tokens + (now - b.lastRefill) / cfg.window * reqQ cfg := by
  have hadd : 0 ≤ (now - b.lastRefill) / cfg.window * reqQ cfg :=
    mul_nonneg (div_nonneg (by linarith) (le_of_lt hw)) hr
  unfold refill
  dsimp only
  split
  · linarith
  · split
    · next hcap => linarith [le_of_lt hcap]
    · linarith

theorem refill_tokens_le_burst (cfg : RLConfig) (b : Bucket) (now : ℚ)
    (helapsed : 0 < now - b.lastRefill) :
    (refill cfg b now).tokens ≤ b.burst := by
  unfold refill
  dsimp only
  rw [if_neg (by linarith : ¬ now - b.lastRefill ≤ 0)]
  dsimp only
  split
  · exact le_refl _
  · next h => exact not_lt.mp h

theorem refill_tokens_nonneg (cfg : RLConfig) (b : Bucket) (now : ℚ)
    (hw : 0 < cfg.window) (hr : 0 ≤ reqQ cfg) (hlr : b.lastRefill ≤ now)
    (ht : 0 ≤ b.tokens) (hbst : 0 ≤ b.burst) :
    0 ≤ (refill cfg b now).tokens := by
  have hadd : 0 ≤ (now - b.lastRefill) / cfg.window * reqQ cfg :=
    mul_nonneg (div_nonneg (by linarith) (le_of_lt hw)) hr
  unfold refill
  dsimp only
  split
  · exact ht
  · split
    · exact hbst
    · linarith

theorem refill_of_nonpos_elapsed (cfg : RLConfig) (b : Bucket) (now : ℚ)
    (h : now - b.lastRefill ≤ 0) : refill cfg b now = b := by
  unfold refill
  dsimp only
  rw [if_pos h]

theorem allowStep_snd (cfg : RLConfig) (b : Bucket) (now : ℚ) :
    (allowStep cfg b now).2.tokens =
      (refill cfg b now).tokens -
        (if (allowStep cfg b now).1 then 1 else 0) ∧
    (allowStep cfg b now).2.lastRefill = (refill cfg b now).lastRefill ∧
    (allowStep cfg b now).2.burst = (refill cfg b now).burst ∧
    ((allowStep cfg b now).1 = true → 1 ≤ (refill cfg b now).tokens) := by
  unfold allowStep
  dsimp only
  split
  · next h => exact ⟨by simp, rfl, rfl, fun _ => h⟩
  · next h => exact ⟨by simp, rfl, rfl, fun hc => by cases hc⟩

theorem refill_lastRefill_eq_now (cfg : RLConfig) (b : Bucket) (now : ℚ)
    (hlr : b.lastRefill ≤ now) : (refill cfg b now).lastRefill = now := by
  unfold refill
  dsimp only
  split
  · next h => exact le_antisymm hlr (by linarith)
  · rfl

theorem max_nonneg_of_left {x y : ℚ} (hx : 0 ≤ x) : 0 ≤ max x y :=
  le_trans hx (le_max_left x y)

/-- One `Allow` call on a bucket consumes at most its potential: the
admission (counted when the call lies in `[a, a+window]`) plus the new
potential is bounded by the old potential, and the state invariant is
preserved. -/
theorem allow_phi_step_bucket (cfg : RLConfig) (hw : 0 < cfg.window)
    (hr : 0 ≤ reqQ cfg) (hb : 0 ≤ burstQ cfg) (a t : ℚ) (b0 : Bucket)
    (h0 : 0 ≤ b0.tokens) (hcap : b0.tokens ≤ tokenCap cfg)
    (hbst : b0.burst = burstQ cfg) (hlr0 : b0.lastRefill ≤ t)
    (hthi : t ≤ a + cfg.window) :
    ((if (allowStep cfg b0 t).1 ∧ a ≤ t ∧ t ≤ a + cfg.window then (1 : ℚ) else 0)
        + phi cfg a (some (allowStep cfg b0 t).2) ≤ phi cfg a (some b0)) ∧
    BucketInv cfg a (some (allowStep cfg b0 t).2) ∧
    (allowStep cfg b0 t).2.lastRefill = t := by
  obtain ⟨hTok, hLr, hBst, hOk⟩ := allowStep_snd cfg b0 t
  have hlr1 : (refill cfg b0 t).lastRefill = t :=
    refill_lastRefill_eq_now cfg b0 t hlr0
  have hlr' : (allowStep cfg b0 t).2.lastRefill = t := by rw [hLr, hlr1]
  have h1nonneg : 0 ≤ (refill cfg b0 t).tokens :=
    refill_tokens_nonneg cfg b0 t hw hr hlr0 h0 (hbst ▸ hb)
  have h1cap : (refill cfg b0 t).tokens ≤ tokenCap cfg := by
    by_cases he : t - b0.lastRefill ≤ 0
    · rw [refill_of_nonpos_elapsed cfg b0 t he]
      exact hcap
    · have hB := refill_tokens_le_burst cfg b0 t (by linarith)
      rw [hbst] at hB
      exact le_trans hB (le_max_left _ _)
  have hadd := refill_tokens_le_add cfg b0 t hw hr hlr0
  have hMR : (0 : ℚ) ≤ tokenCap cfg + reqQ cfg := by
    have := max_nonneg_of_left (y := reqQ cfg) hb
    unfold tokenCap
    linarith
  have hfr0 : 0 ≤ (a + cfg.window - t) / cfg.window * reqQ cfg :=
    mul_nonneg (div_nonneg (by linarith) (le_of_lt hw)) hr
  have hite : (if (allowStep cfg b0 t).1 then (1 : ℚ) else 0) = 0 ∨
      ((if (allowStep cfg b0 t).1 then (1 : ℚ) else 0) = 1 ∧
        1 ≤ (refill cfg b0 t).tokens) := by
    by_cases hok : (allowStep cfg b0 t).1 = true
    · exact Or.inr ⟨by rw [if_pos hok], hOk hok⟩
    · exact Or.inl (by rw [if_neg hok])
  have htok' : (allowStep cfg b0 t).2.tokens =
      (refill cfg b0 t).tokens - (if (allowStep cfg b0 t).1 then 1 else 0) :=
    hTok
  have hInv' : BucketInv cfg a (some (allowStep cfg b0 t).2) := by
    simp only [BucketInv]
    refine ⟨?_, ?_, ?_, ?_⟩
    · rw [htok']
      rcases hite with h | ⟨h, h1⟩ <;> rw [h] <;> linarith
    · rw [htok']
      rcases hite with h | ⟨h, _⟩ <;> rw [h] <;> linarith
    · rw [hBst, refill_burst, hbst]
    · simp only [phi, hlr']
      split
      · exact hMR
      · next hta =>
          have hta' : a ≤ t := not_lt.mp hta
          rw [htok']
          rcases hite with h | ⟨h, h1⟩ <;> rw [h] <;> [skip; skip] <;> linarith
  refine ⟨?_, hInv', hlr'⟩
  by_cases hta : a ≤ t
  · -- the call lies inside the window
    have hfr1 : (a + cfg.window - t) / cfg.window * reqQ cfg ≤ reqQ cfg := by
      have h1 : (a + cfg.window - t) / cfg.window ≤ 1 :=
        (div_le_one hw).mpr (by linarith)
      have := mul_le_mul_of_nonneg_right h1 hr
      rwa [one_mul] at this
    have hphis' : phi cfg a (some (allowStep cfg b0 t).2) =
        (allowStep cfg b0 t).2.tokens +
          (a + cfg.window - t) / cfg.window * reqQ cfg := by
      simp only [phi, hlr']
      rw [if_neg (not_lt.mpr hta)]
    have hcount : (if (allowStep cfg b0 t).1 ∧ a ≤ t ∧ t ≤ a + cfg.window
        then (1 : ℚ) else 0) = (if (allowStep cfg b0 t).1 then (1 : ℚ) else 0) := by
      by_cases hok : (allowStep cfg b0 t).1 = true
      · rw [if_pos ⟨hok, hta, hthi⟩, if_pos hok]
      · rw [if_neg (fun hcond => hok hcond.1), if_neg hok]
    rw [hcount, hphis', htok']
    have hgoal : (refill cfg b0 t).tokens +
        (a + cfg.window - t) / cfg.window * reqQ cfg ≤ phi cfg a (some b0) := by
      by_cases hlra : b0.lastRefill < a
      · -- pre-window bucket: the refill capped the balance at burst
        have helapsed : 0 < t - b0.lastRefill := by linarith
        have hB := refill_tokens_le_burst cfg b0 t helapsed
        rw [hbst] at hB
        have hBM : burstQ cfg ≤ tokenCap cfg := le_max_left _ _
        simp only [phi, if_pos hlra]
        linarith
      · -- in-window bucket: exact potential accounting
        have hring : (t - b0.lastRefill) / cfg.window * reqQ cfg +
            (a + cfg.window - t) / cfg.window * reqQ cfg =
            (a + cfg.window - b0.lastRefill) / cfg.window * reqQ cfg := by
          ring
        simp only [phi, if_neg hlra]
        linarith
    rcases hite with h | ⟨h, _⟩ <;> rw [h] <;> linarith
  · -- the call precedes the window: nothing is counted and the potential
    -- stays at its pre-window ceiling
    have hcount : (if (allowStep cfg b0 t).1 ∧ a ≤ t ∧ t ≤ a + cfg.window
        then (1 : ℚ) else 0) = 0 := by
      rw [if_neg (fun hcond => hta hcond.2.1)]
    have hphis' : phi cfg a (some (allowStep cfg b0 t).2) =
        tokenCap cfg + reqQ cfg := by
      simp only [phi, hlr']
      rw [if_pos (not_le.mp hta)]
    have hphis : phi cfg a (some b0) = tokenCap cfg + reqQ cfg := by
      simp only [phi]
      rw [if_pos (by linarith [not_le.mp hta] : b0.lastRefill < a)]
    rw [hcount, hphis', hphis]
    linarith

theorem phi_mkBucket_le (cfg : RLConfig) (hw : 0 < cfg.window)
    (hr : 0 ≤ reqQ cfg) (a t : ℚ) (hthi : t ≤ a + cfg.window) :
    phi cfg a (some (mkBucket cfg t)) ≤ phi cfg a none := by
  simp only [phi, mkBucket]
  split
  · exact le_refl _
  · next hta =>
      have hta' : a ≤ t := not_lt.mp hta
      have hfr1 : (a + cfg.window - t) / cfg.window * reqQ cfg ≤ reqQ cfg := by
        have h1 : (a + cfg.window - t) / cfg.window ≤ 1 :=
          (div_le_one hw).mpr (by linarith)
        have := mul_le_mul_of_nonneg_right h1 hr
        rwa [one_mul] at this
      have hRM : reqQ cfg ≤ tokenCap cfg := le_max_right _ _
      unfold tokenCap at hRM ⊢
      linarith

theorem allow_phi_step (cfg : RLConfig) (hw : 0 < cfg.window)
    (hr : 0 ≤ reqQ cfg) (hb : 0 ≤ burstQ cfg) (a t : ℚ) (s : Option Bucket)
    (hInv : BucketInv cfg a s)
    (hlr : ∀ b, s = some b → b.lastRefill ≤ t)
    (hthi : t ≤ a + cfg.window) :
    ((if (runAllow cfg s t).1 ∧ a ≤ t ∧ t ≤ a + cfg.window then (1 : ℚ) else 0)
        + phi cfg a (some (runAllow cfg s t).2) ≤ phi cfg a s) ∧
    BucketInv cfg a (some (runAllow cfg s t).2) ∧
    (runAllow cfg s t).2.lastRefill = t := by
  rcases s with _ | b
  · have hrw : runAllow cfg none t = allowStep cfg (mkBucket cfg t) t := rfl
    rw [hrw]
    have hms := allow_phi_step_bucket cfg hw hr hb a t (mkBucket cfg t)
      (by simpa [mkBucket] using hr)
      (by simpa [mkBucket, tokenCap] using le_max_right (burstQ cfg) (reqQ cfg))
      rfl (le_refl t) hthi
    exact ⟨le_trans hms.1 (phi_mkBucket_le cfg hw hr a t hthi), hms.2⟩
  · have hrw : runAllow cfg (some b) t = allowStep cfg b t := rfl
    rw [hrw]
    obtain ⟨h0, hcap, hbst, _⟩ := hInv
    exact allow_phi_step_bucket cfg hw hr hb a t b h0 hcap hbst (hlr b rfl) hthi

theorem runCount_zero_of_late (cfg : RLConfig) (lo hi : ℚ) :
    ∀ (ts : List ℚ) (s : Option Bucket), (∀ u ∈ ts, hi < u) →
      runCount cfg lo hi s ts = 0 := by
  intro ts
  induction ts with
  | nil => intro s _; rfl
  | cons t ts ih =>
      intro s hlate
      have h1 : ¬ ((runAllow cfg s t).1 ∧ lo ≤ t ∧ t ≤ hi) := by
        intro hc
        exact absurd hc.2.2 (not_le.mpr (hlate t (List.mem_cons_self _ _)))
      simp only [runCount, if_neg h1, zero_add]
      exact ih _ (fun u hu => hlate u (List.mem_cons_of_mem _ hu))

theorem phi_nonneg_of_inv (cfg : RLConfig) (hr : 0 ≤ reqQ cfg)
    (hb : 0 ≤ burstQ cfg) (a : ℚ) (s : Option Bucket)
    (hInv : BucketInv cfg a s) : 0 ≤ phi cfg a s := by
  rcases s with _ | b
  · simp only [phi]
    have := max_nonneg_of_left (y := reqQ cfg) hb
    unfold tokenCap
    linarith
  · exact hInv.2.2.2

theorem runCount_le_phi (cfg : RLConfig) (hw : 0 < cfg.window)
    (hr : 0 ≤ reqQ cfg) (hb : 0 ≤ burstQ cfg) (a : ℚ) :
    ∀ (ts : List ℚ), ts.Sorted (· ≤ ·) → ∀ s : Option Bucket,
      BucketInv cfg a s → (∀ b, s = some b → ∀ u ∈ ts, b.lastRefill ≤ u) →
      ((runCount cfg a (a + cfg.window) s ts : ℚ)) ≤ phi cfg a s := by
  intro ts
  induction ts with
  | nil =>
      intro _ s hInv _
      simp only [runCount, Nat.cast_zero]
      exact phi_nonneg_of_inv cfg hr hb a s hInv
  | cons t ts ih =>
      intro hsorted s hInv hlr
      obtain ⟨hhead, htail⟩ := List.sorted_cons.mp hsorted
      by_cases hpost : a + cfg.window < t
      · have hz : runCount cfg a (a + cfg.window) s (t :: ts) = 0 := by
          apply runCount_zero_of_late
          intro u hu
          rcases List.mem_cons.mp hu with rfl | hu
          · exact hpost
          · exact lt_of_lt_of_le hpost (hhead u hu)
        rw [hz]
        simp only [Nat.cast_zero]
        exact phi_nonneg_of_inv cfg hr hb a s hInv
      · have hthi : t ≤ a + cfg.window := not_lt.mp hpost
        obtain ⟨hstep, hInv', hlr'⟩ := allow_phi_step cfg hw hr hb a t s hInv
          (fun b hb2 => hlr b hb2 t (List.mem_cons_self _ _)) hthi
        have hIH := ih htail (some (runAllow cfg s t).2) hInv'
          (fun b hb2 u hu => by
            have hbeq : (runAllow cfg s t).2 = b := Option.some.inj hb2
            rw [← hbeq, hlr']
            exact hhead u hu)
        have hsplit : runCount cfg a (a + cfg.window) s (t :: ts) =
            (if (runAllow cfg s t).1 ∧ a ≤ t ∧ t ≤ a + cfg.window then 1 else 0) +
            runCount cfg a (a + cfg.window) (some (runAllow cfg s t).2) ts := rfl
        rw [hsplit, Nat.cast_add]
        have hcast : ((if (runAllow cfg s t).1 ∧ a ≤ t ∧ t ≤ a + cfg.window
            then (1 : ℕ) else 0 : ℕ) : ℚ) =
            (if (runAllow cfg s t).1 ∧ a ≤ t ∧ t ≤ a + cfg.window
              then (1 : ℚ) else 0) := by
          split_ifs <;> simp
        rw [hcast]
        linarith

/-- C9 (amended): under the token-bucket algorithm, for every key and every
time interval of length `window`, the number of requests admitted by
`allow` for that key is at most `max(burst, requests) + requests` (with
`burst` its effective value, defaulting to `requests` when unset).  The
claimed bound `burst + requests` holds whenever `burst ≥ requests` — in
particular for the default — but a fresh bucket starts with `requests`
tokens, so with `burst < requests` the first window can admit up to
`requests + requests` calls. -/
theorem c9_token_bucket_bound (cfg : RLConfig) (hw : 0 < cfg.window)
    (hreq : 0 ≤ cfg.requests) (ts : List ℚ) (hts : ts.Sorted (· ≤ ·))
    (a : ℚ) :
    ((runCount cfg.effective a (a + cfg.window) none ts : ℚ)) ≤
      max ((cfg.effective.burst : ℚ)) ((cfg.requests : ℚ)) +
        (cfg.requests : ℚ) := by
  have hwin : cfg.effective.window = cfg.window := by
    unfold RLConfig.effective
    split <;> rfl
  have hreqe : cfg.effective.requests = cfg.requests := by
    unfold RLConfig.effective
    split <;> rfl
  have hre : 0 ≤ reqQ cfg.effective := by
    unfold reqQ
    rw [hreqe]
    exact_mod_cast hreq
  have hbe : 0 ≤ burstQ cfg.effective := by
    by_cases h : cfg.burst ≤ 0
    · simp only [RLConfig.effective, if_pos h, burstQ]
      exact_mod_cast hreq
    · simp only [RLConfig.effective, if_neg h, burstQ]
      exact_mod_cast le_of_lt (not_le.mp h)
  have hmain := runCount_le_phi cfg.effective (by rw [hwin]; exact hw)
    hre hbe a ts hts none trivial (fun b hb2 => by cases hb2)
  rw [hwin] at hmain
  simp only [phi, tokenCap, burstQ, reqQ, hreqe] at hmain
  exact hmain

/-- Witness for `c9_token_bucket_bound`. -/
theorem c9_token_bucket_bound_witness :
    ((runCount rlCfgW.effective 0 (0 + rlCfgW.window) none [0, 0] : ℚ)) ≤
      max ((rlCfgW.effective.burst : ℚ)) ((rlCfgW.requests : ℚ)) +
        (rlCfgW.requests : ℚ) := by
  exact c9_token_bucket_bound rlCfgW (by norm_num [rlCfgW])
    (by norm_num [rlCfgW]) [0, 0] (by simp) 0

/-- C9 counterexample: with `requests = 2`, `window = 4`, `burst = 1`
(a positive `burst` below `requests`, kept by `NewTokenBucket`), the four
calls at instants 0, 0, 2, 4 all lie in the window `[0, 4]` and are all
admitted — the fresh bucket starts with `requests = 2` tokens although its
capacity is `burst = 1` — exceeding the claimed bound
`burst + requests = 3`. -/
theorem c9_burst_counterexample :
    List.Sorted (· ≤ ·) [(0 : ℚ), 0, 2, 4] ∧
    (0 : ℚ) < rlCfgCE.window ∧ (0 : Int) < rlCfgCE.requests ∧
    (0 : Int) < rlCfgCE.burst ∧
    runCount rlCfgCE.effective 0 (0 + rlCfgCE.window) none [0, 0, 2, 4] = 4 ∧
    ¬ (((runCount rlCfgCE.effective 0 (0 + rlCfgCE.window) none
          [0, 0, 2, 4] : Nat) : Int)
        ≤ rlCfgCE.effective.burst + rlCfgCE.effective.requests) := by
  have heff : rlCfgCE.effective = rlCfgCE := by
    unfold RLConfig.effective
    rw [if_neg (by norm_num [rlCfgCE])]
  have hcount : runCount rlCfgCE.effective 0 (0 + rlCfgCE.window) none
      [0, 0, 2, 4] = 4 := by
    rw [heff]
    norm_num [runCount, runAllow, allowStep, refill, mkBucket, rlCfgCE,
      reqQ, burstQ]
  refine ⟨?_, by norm_num [rlCfgCE], by norm_num [rlCfgCE],
    by norm_num [rlCfgCE], hcount, ?_⟩
  · norm_num [List.sorted_cons]
  · rw [hcount, heff]
    norm_num [rlCfgCE]

end OrderFlow
